import Mathlib

/-!
Verification development for the ipwb replay engine (`ipwb/replay.py`).

Python strings are shallowly embedded as lists of characters (`Line`);
Python string primitives (`split`, `strip`, `replace`, `in`, `<`, slicing)
are given direct recursive definitions below, and the index-search,
memento-resolution, TimeMap and response-reconstruction functions of
`replay.py` are translated on top of them.  All definitions are
structurally recursive (bounded loops carry an explicit fuel argument
equal to the quantity the Python loop consumes), so every definition
evaluates by kernel reduction on concrete inputs.
-/

/-- Python strings are modelled as lists of characters (code points). -/
abbrev Line := List Char

/-- Coerce a Lean string literal into the character-list model. -/
def str (s : String) : Line := s.data

theorem bool_eq_false {b : Bool} (h : ¬ b = true) : b = false := by
  cases b
  · rfl
  · exact absurd rfl h

/-- Python string comparison `a < b`: lexicographic by code point.
`bisect_left` compares the CDXJ search strings with exactly this order. -/
def lexLt : Line → Line → Bool
  | [], [] => false
  | [], _ :: _ => true
  | _ :: _, [] => false
  | a :: as, b :: bs => if a < b then true else if b < a then false else lexLt as bs

theorem lexLt_irrefl (a : Line) : lexLt a a = false := by
  induction a with
  | nil => rfl
  | cons c cs ih => simp [lexLt, ih]

theorem lexLt_trans {a b c : Line} (hab : lexLt a b = true) (hbc : lexLt b c = true) :
    lexLt a c = true := by
  induction a generalizing b c with
  | nil =>
    cases b with
    | nil => simp [lexLt] at hab
    | cons b0 bs =>
      cases c with
      | nil => simp [lexLt] at hbc
      | cons c0 cs => simp [lexLt]
  | cons a0 as ih =>
    cases b with
    | nil => simp [lexLt] at hab
    | cons b0 bs =>
      cases c with
      | nil => simp [lexLt] at hbc
      | cons c0 cs =>
        simp only [lexLt] at hab hbc ⊢
        by_cases h1 : a0 < b0
        · by_cases h2 : b0 < c0
          · simp [lt_trans h1 h2]
          · simp only [h2, if_false] at hbc
            by_cases h3 : c0 < b0
            · simp [h3] at hbc
            · have hbe : b0 = c0 := le_antisymm (le_of_not_lt h3) (le_of_not_lt h2)
              subst hbe
              simp [h1]
        · simp only [h1, if_false] at hab
          by_cases h2 : b0 < a0
          · simp [h2] at hab
          · simp only [h2, if_false] at hab
            have hae : a0 = b0 := le_antisymm (le_of_not_lt h2) (le_of_not_lt h1)
            subst hae
            by_cases h3 : a0 < c0
            · simp [h3]
            · simp only [h3, if_false] at hbc ⊢
              by_cases h4 : c0 < a0
              · simp [h4] at hbc
              · simp only [h4, if_false] at hbc ⊢
                exact ih hab hbc

theorem lexLt_antisymm {a b : Line} (hab : lexLt a b = false) (hba : lexLt b a = false) :
    a = b := by
  induction a generalizing b with
  | nil =>
    cases b with
    | nil => rfl
    | cons b0 bs => simp [lexLt] at hab
  | cons a0 as ih =>
    cases b with
    | nil => simp [lexLt] at hba
    | cons b0 bs =>
      simp only [lexLt] at hab hba
      by_cases h1 : a0 < b0
      · simp [h1] at hab
      · by_cases h2 : b0 < a0
        · simp [h1, h2] at hba
        · simp only [h1, h2, if_false] at hab hba
          have hae : a0 = b0 := le_antisymm (le_of_not_lt h2) (le_of_not_lt h1)
          subst hae
          rw [ih hab hba]

theorem lexLt_ne {a b : Line} (h : lexLt a b = true) : a ≠ b := by
  intro he
  subst he
  rw [lexLt_irrefl] at h
  exact absurd h (by decide)

/-- `b ≤ a → b < c → a < c` for the Python string order. -/
theorem lexLt_of_le_of_lt {a b c : Line} (hba : lexLt b a = false) (hbc : lexLt b c = true) :
    lexLt a c = true := by
  by_cases hac : lexLt a c = true
  · exact hac
  · exfalso
    by_cases hca : lexLt c a = true
    · have := lexLt_trans hbc hca
      rw [this] at hba
      exact absurd hba (by decide)
    · have : a = c := lexLt_antisymm (bool_eq_false hac) (bool_eq_false hca)
      subst this
      rw [hbc] at hba
      exact absurd hba (by decide)

/-- `a < b → c ≤ b → a < c ∨ a = c` for the Python string order. -/
theorem lexLt_of_lt_of_le {a b c : Line} (hab : lexLt a b = true) (hcb : lexLt c b = false) :
    lexLt a c = true ∨ a = c := by
  by_cases hac : lexLt a c = true
  · exact Or.inl hac
  · by_cases hca : lexLt c a = true
    · exfalso
      have := lexLt_trans hca hab
      rw [this] at hcb
      exact absurd hcb (by decide)
    · exact Or.inr (lexLt_antisymm (bool_eq_false hac) (bool_eq_false hca))

/-- Transitivity of `≤` for the Python string order. -/
theorem lexLe_trans {a b c : Line} (hba : lexLt b a = false) (hcb : lexLt c b = false) :
    lexLt c a = false := by
  by_cases hca : lexLt c a = true
  · rcases lexLt_of_lt_of_le hca hba with h | h
    · rw [h] at hcb
      exact absurd hcb (by decide)
    · subst h
      exact hba
  · exact bool_eq_false hca

/-- Dropping a common left prefix does not change a comparison. -/
theorem lexLt_append_left (s a b : Line) : lexLt (s ++ a) (s ++ b) = lexLt a b := by
  induction s with
  | nil => rfl
  | cons c cs ih => simp [lexLt, ih]

/-- Comparing strings that start with equal-length blocks: if the longer
strings satisfy `¬ (b ++ y < a ++ x)` then the blocks satisfy `¬ (b < a)`. -/
theorem lexLt_block_le {a b x y : Line} (hlen : a.length = b.length)
    (h : lexLt (b ++ y) (a ++ x) = false) : lexLt b a = false := by
  induction a generalizing b with
  | nil =>
    cases b with
    | nil => rfl
    | cons b0 bs => simp at hlen
  | cons a0 as ih =>
    cases b with
    | nil => simp at hlen
    | cons b0 bs =>
      simp only [List.cons_append, lexLt] at h ⊢
      by_cases h1 : b0 < a0
      · simp [h1] at h
      · simp only [h1, if_false] at h ⊢
        by_cases h2 : a0 < b0
        · simp [h2]
        · simp only [h2, if_false] at h ⊢
          exact ih (by simpa using hlen) h

/-- Python `s.split(c)` for a one-character separator: every occurrence
splits, adjacent separators produce empty fields. -/
def splitOnChar (sep : Char) : Line → List Line
  | [] => [[]]
  | c :: cs =>
    if c = sep then [] :: splitOnChar sep cs
    else
      match splitOnChar sep cs with
      | [] => [[c]]
      | f :: fs => (c :: f) :: fs

theorem splitOnChar_ne_nil (sep : Char) (l : Line) : splitOnChar sep l ≠ [] := by
  cases l with
  | nil => simp [splitOnChar]
  | cons c cs =>
    simp only [splitOnChar]
    by_cases h : c = sep
    · simp [h]
    · simp only [h, if_false]
      cases splitOnChar sep cs <;> simp

theorem splitOnChar_cons_self (sep : Char) (l : Line) :
    splitOnChar sep (sep :: l) = [] :: splitOnChar sep l := by
  simp [splitOnChar]

theorem splitOnChar_cons_ne {sep c : Char} (l : Line) (h : c ≠ sep) :
    splitOnChar sep (c :: l) =
      (c :: (splitOnChar sep l).headD []) :: (splitOnChar sep l).tail := by
  simp only [splitOnChar]
  rw [if_neg h]
  cases hs : splitOnChar sep l with
  | nil => exact absurd hs (splitOnChar_ne_nil sep l)
  | cons f fs => rfl

/-- No field produced by `splitOnChar` contains the separator. -/
theorem splitOnChar_not_mem {sep : Char} {l : Line} :
    ∀ f ∈ splitOnChar sep l, sep ∉ f := by
  induction l with
  | nil =>
    intro f hf
    simp only [splitOnChar, List.mem_singleton] at hf
    simp [hf]
  | cons c cs ih =>
    intro f hf
    by_cases h : c = sep
    · subst h
      rw [splitOnChar_cons_self c cs] at hf
      rcases List.mem_cons.mp hf with hf | hf
      · simp [hf]
      · exact ih f hf
    · rw [splitOnChar_cons_ne cs h] at hf
      rcases List.mem_cons.mp hf with hf | hf
      · subst hf
        intro hmem
        rcases List.mem_cons.mp hmem with hmem | hmem
        · exact h hmem.symm
        · have hh : (splitOnChar sep cs).headD [] ∈ splitOnChar sep cs := by
            cases hs : splitOnChar sep cs with
            | nil => exact absurd hs (splitOnChar_ne_nil sep cs)
            | cons g gs => simp
          exact ih _ hh hmem
      · have hmem2 : f ∈ splitOnChar sep cs := by
          cases hs : splitOnChar sep cs with
          | nil => exact absurd hs (splitOnChar_ne_nil sep cs)
          | cons g gs =>
            rw [hs] at hf
            simp only [List.tail_cons] at hf
            exact List.mem_cons_of_mem g hf
        exact ih f hmem2

/-- Splitting at an explicit first separator. -/
theorem splitOnChar_append_sep {sep : Char} {x : Line} (y : Line) (hx : sep ∉ x) :
    splitOnChar sep (x ++ sep :: y) = x :: splitOnChar sep y := by
  induction x with
  | nil => simp [splitOnChar]
  | cons c cs ih =>
    have hc : c ≠ sep := fun h => hx (by simp [h])
    have hcs : sep ∉ cs := fun h => hx (List.mem_cons_of_mem c h)
    rw [List.cons_append, splitOnChar_cons_ne _ hc, ih hcs]
    simp

/-- `sep.join`-style joining with an arbitrary separator string. -/
def joinWith (sep : Line) : List Line → Line
  | [] => []
  | [l] => l
  | l :: l' :: ls => l ++ sep ++ joinWith sep (l' :: ls)

/-- Splitting and rejoining on the same separator is the identity. -/
theorem joinWith_splitOnChar (sep : Char) (l : Line) :
    joinWith [sep] (splitOnChar sep l) = l := by
  induction l with
  | nil => rfl
  | cons c cs ih =>
    by_cases h : c = sep
    · subst h
      rw [splitOnChar_cons_self c cs]
      cases hs : splitOnChar c cs with
      | nil => exact absurd hs (splitOnChar_ne_nil c cs)
      | cons f fs =>
        rw [hs] at ih
        simpa [joinWith] using ih
    · rw [splitOnChar_cons_ne cs h]
      cases hs : splitOnChar sep cs with
      | nil => exact absurd hs (splitOnChar_ne_nil sep cs)
      | cons f fs =>
        rw [hs] at ih
        cases fs with
        | nil =>
          simp only [joinWith] at ih ⊢
          simp only [List.headD_cons, List.tail_cons, joinWith]
          rw [ih]
        | cons g gs =>
          simp only [List.headD_cons, List.tail_cons]
          simp only [joinWith] at ih ⊢
          rw [← ih]
          simp

/-- Python `line.split(' ')[0]`. -/
def field0 (l : Line) : Line := (splitOnChar ' ' l).headD []

/-- Python `line.split(' ')[1]` (second space-separated field). -/
def field1 (l : Line) : Line := (splitOnChar ' ' l).getD 1 []

theorem field0_append {s : Line} (r : Line) (hs : ' ' ∉ s) :
    field0 (s ++ ' ' :: r) = s := by
  unfold field0
  rw [splitOnChar_append_sep r hs]
  rfl

theorem field1_append {s : Line} (r : Line) (hs : ' ' ∉ s) :
    field1 (s ++ ' ' :: r) = field0 r := by
  unfold field1 field0
  rw [splitOnChar_append_sep r hs]
  cases hs' : splitOnChar ' ' r with
  | nil => exact absurd hs' (splitOnChar_ne_nil ' ' r)
  | cons f fs => simp

/-- Two decompositions `a ++ ' ' :: x = b ++ ' ' :: y` with space-free
heads agree componentwise. -/
theorem append_sep_inj {a b x y : Line} (ha : ' ' ∉ a) (hb : ' ' ∉ b)
    (h : a ++ ' ' :: x = b ++ ' ' :: y) : a = b ∧ x = y := by
  induction a generalizing b with
  | nil =>
    cases b with
    | nil => simpa using h
    | cons b0 bs =>
      simp only [List.nil_append, List.cons_append, List.cons.injEq] at h
      exact absurd (List.mem_cons.mpr (Or.inl h.1)) hb
  | cons a0 as ih =>
    cases b with
    | nil =>
      simp only [List.cons_append, List.nil_append, List.cons.injEq] at h
      exact absurd (List.mem_cons.mpr (Or.inl h.1.symm)) ha
    | cons b0 bs =>
      simp only [List.cons_append, List.cons.injEq] at h
      have ha' : ' ' ∉ as := fun hm => ha (List.mem_cons_of_mem a0 hm)
      have hb' : ' ' ∉ bs := fun hm => hb (List.mem_cons_of_mem b0 hm)
      rcases ih ha' hb' h.2 with ⟨h1, h2⟩
      exact ⟨by rw [h.1, h1], h2⟩

/-- The whitespace characters stripped by Python `str.strip()`. -/
def pyIsSpace (c : Char) : Bool :=
  c = ' ' || c = '\t' || c = '\n' || c = '\r' || c = '\x0b' || c = '\x0c'

/-- Python `s.strip()`. -/
def pyStrip (l : Line) : Line :=
  ((l.dropWhile pyIsSpace).reverse.dropWhile pyIsSpace).reverse

/-- Python `len(s.strip()) == 0`. -/
def isBlank (l : Line) : Bool := (pyStrip l).isEmpty

theorem isBlank_cons_of_not_space {c : Char} (l : Line) (hc : pyIsSpace c = false) :
    isBlank (c :: l) = false := by
  unfold isBlank pyStrip
  rw [List.dropWhile_cons]
  simp only [hc, Bool.false_eq_true, if_false]
  apply bool_eq_false
  intro hemp
  rw [List.isEmpty_iff] at hemp
  have hnil : (c :: l).reverse.dropWhile pyIsSpace = [] := by
    have h2 := congrArg List.reverse hemp
    simpa using h2
  rw [List.dropWhile_eq_nil_iff] at hnil
  have h3 := hnil c (by simp)
  rw [hc] at h3
  exact absurd h3 (by decide)

/-- `leadsWith p s`: `s` starts with the pattern `p` (Python slicing
comparison `s[:len(p)] == p`). -/
def leadsWith : Line → Line → Bool
  | [], _ => true
  | _ :: _, [] => false
  | p :: ps, c :: cs => p = c && leadsWith ps cs

theorem leadsWith_append (p r : Line) : leadsWith p (p ++ r) = true := by
  induction p with
  | nil => rfl
  | cons c cs ih => simp [leadsWith, ih]

/-- Python substring test `pat in s`. -/
def occursIn (pat : Line) : Line → Bool
  | [] => leadsWith pat []
  | c :: cs => leadsWith pat (c :: cs) || occursIn pat cs

theorem occursIn_of_leadsWith {pat s : Line} (h : leadsWith pat s = true) :
    occursIn pat s = true := by
  cases s with
  | nil => simpa [occursIn] using h
  | cons c cs => simp [occursIn, h]

theorem occursIn_cons_of_occursIn {pat : Line} (c : Char) {cs : Line}
    (h : occursIn pat cs = true) : occursIn pat (c :: cs) = true := by
  simp [occursIn, h]

theorem occursIn_append_self (pat x y : Line) : occursIn pat (x ++ pat ++ y) = true := by
  induction x with
  | nil => exact occursIn_of_leadsWith (by simpa using leadsWith_append pat y)
  | cons c cs ih => simpa using occursIn_cons_of_occursIn c (by simpa using ih)

theorem occursIn_cons_false {pat : Line} {c : Char} {cs : Line}
    (h : occursIn pat (c :: cs) = false) :
    leadsWith pat (c :: cs) = false ∧ occursIn pat cs = false := by
  simp only [occursIn, Bool.or_eq_false_iff] at h
  exact h

/-- Python `s.replace(pat, rep)` with an explicit fuel argument
(`fuel = s.length` suffices: the loop consumes at least one character of
`s` per step because every pattern used in the source is non-empty; for
the empty pattern — never passed by the translated code — this model is
the identity). -/
def pyReplaceF : Nat → Line → Line → Line → Line
  | 0, s, _, _ => s
  | _ + 1, [], _, _ => []
  | fuel + 1, c :: cs, pat, rep =>
    if pat ≠ [] ∧ leadsWith pat (c :: cs) = true then
      rep ++ pyReplaceF fuel ((c :: cs).drop pat.length) pat rep
    else c :: pyReplaceF fuel cs pat rep

/-- Python `s.replace(pat, rep)`. -/
def pyReplace (s pat rep : Line) : Line := pyReplaceF s.length s pat rep

theorem pyReplaceF_congr {pat rep : Line} :
    ∀ (fuel fuel' : Nat) (s : Line), s.length ≤ fuel → s.length ≤ fuel' →
      pyReplaceF fuel s pat rep = pyReplaceF fuel' s pat rep := by
  intro fuel
  induction fuel with
  | zero =>
    intro fuel' s hs _
    have hsnil : s = [] := List.length_eq_zero.mp (Nat.le_zero.mp hs)
    subst hsnil
    cases fuel' <;> rfl
  | succ n ih =>
    intro fuel' s hs hs'
    cases s with
    | nil => cases fuel' <;> rfl
    | cons c cs =>
      cases fuel' with
      | zero => simp at hs'
      | succ n' =>
        simp only [pyReplaceF]
        have hcs : cs.length ≤ n := by
          simp only [List.length_cons] at hs
          omega
        have hcs' : cs.length ≤ n' := by
          simp only [List.length_cons] at hs'
          omega
        by_cases h : pat ≠ [] ∧ leadsWith pat (c :: cs) = true
        · rw [if_pos h, if_pos h]
          have hp : 0 < pat.length := List.length_pos.mpr h.1
          have hlen : ((c :: cs).drop pat.length).length ≤ cs.length := by
            rw [List.length_drop]
            simp only [List.length_cons]
            omega
          rw [ih _ _ (le_trans hlen hcs) (le_trans hlen hcs')]
        · rw [if_neg h, if_neg h]
          rw [ih _ _ hcs hcs']

theorem pyReplaceF_eq_pyReplace {pat rep : Line} (fuel : Nat) (s : Line)
    (h : s.length ≤ fuel) : pyReplaceF fuel s pat rep = pyReplace s pat rep :=
  pyReplaceF_congr fuel s.length s h (le_refl _)

theorem pyReplace_nil (pat rep : Line) : pyReplace [] pat rep = [] := rfl

/-- Replacing a pattern that does not occur is the identity. -/
theorem pyReplace_of_not_occurs {s pat : Line} (rep : Line)
    (h : occursIn pat s = false) : pyReplace s pat rep = s := by
  induction s with
  | nil => rfl
  | cons c cs ih =>
    rcases occursIn_cons_false h with ⟨h1, h2⟩
    show pyReplaceF (c :: cs).length (c :: cs) pat rep = c :: cs
    simp only [List.length_cons, pyReplaceF]
    rw [if_neg (by simp [h1])]
    exact congrArg (c :: ·) (ih h2)

theorem getD_eq_of_lt {α : Type _} (l : List α) (d : α) {i : Nat} (h : i < l.length) :
    l.getD i d = l[i] := by
  rw [List.getD_eq_getElem?_getD, List.getElem?_eq_getElem h]
  rfl

theorem mid_lb {lo hi : Nat} (h : lo < hi) : lo ≤ (lo + hi) / 2 := by
  rw [Nat.le_div_iff_mul_le (by norm_num)]
  omega

theorem mid_ub {lo hi : Nat} (h : lo < hi) : (lo + hi) / 2 < hi := by
  rw [Nat.div_lt_iff_lt_mul (by norm_num)]
  omega

/-- `bisect.bisect_left` from the Python standard library, applied by
`binary_search` to the list of CDXJ search strings; fuel `hi - lo`
suffices because each iteration strictly shrinks the interval. -/
def bisectF : Nat → List Line → Line → Nat → Nat → Nat
  | 0, _, _, lo, _ => lo
  | fuel + 1, a, x, lo, hi =>
    if lo < hi then
      if lexLt (a.getD ((lo + hi) / 2) []) x then bisectF fuel a x ((lo + hi) / 2 + 1) hi
      else bisectF fuel a x lo ((lo + hi) / 2)
    else lo

/-- `bisect_left(a, x, lo, hi)`. -/
def bisect_left (a : List Line) (x : Line) (lo hi : Nat) : Nat :=
  bisectF (hi - lo) a x lo hi

/-- The data sequence is weakly sorted in the Python string order
(the global CDXJ sort invariant). -/
abbrev SortedLe (l : List Line) : Prop :=
  List.Pairwise (fun u v => lexLt v u = false) l

theorem SortedLe.le_of_le {l : List Line} (h : SortedLe l) {i j : Nat}
    (hij : i ≤ j) (hj : j < l.length) :
    lexLt (l.getD j []) (l.getD i []) = false := by
  rcases Nat.lt_or_ge i j with hlt | hge
  · have hp := (List.pairwise_iff_getElem.mp h) i j (lt_trans hlt hj) hj hlt
    rw [getD_eq_of_lt l [] hj, getD_eq_of_lt l [] (lt_trans hlt hj)]
    exact hp
  · have : i = j := le_antisymm hij hge
    subst this
    exact lexLt_irrefl _

theorem bisectF_bounds (a : List Line) (x : Line) :
    ∀ (fuel lo hi : Nat), hi - lo ≤ fuel → lo ≤ hi →
      lo ≤ bisectF fuel a x lo hi ∧ bisectF fuel a x lo hi ≤ hi := by
  intro fuel
  induction fuel with
  | zero =>
    intro lo hi hf hlh
    simp only [bisectF]
    omega
  | succ n ih =>
    intro lo hi hf hlh
    simp only [bisectF]
    by_cases h : lo < hi
    · rw [if_pos h]
      have hl := mid_lb h
      have hu := mid_ub h
      by_cases hm : lexLt (a.getD ((lo + hi) / 2) []) x = true
      · rw [if_pos hm]
        have := ih ((lo + hi) / 2 + 1) hi (by omega) (by omega)
        omega
      · rw [if_neg hm]
        have := ih lo ((lo + hi) / 2) (by omega) (by omega)
        omega
    · rw [if_neg h]
      omega

/-- `bisect_left` invariant: on a sorted list every element strictly below
the returned position is strictly below the needle. -/
theorem bisectF_lt_below (a : List Line) (x : Line) (hsorted : SortedLe a) :
    ∀ (fuel lo hi : Nat), hi - lo ≤ fuel → lo ≤ hi → hi ≤ a.length →
      ∀ i, lo ≤ i → i < bisectF fuel a x lo hi → lexLt (a.getD i []) x = true := by
  intro fuel
  induction fuel with
  | zero =>
    intro lo hi hf hlh _ i hi1 hi2
    simp only [bisectF] at hi2
    omega
  | succ n ih =>
    intro lo hi hf hlh hha i hi1 hi2
    simp only [bisectF] at hi2
    by_cases h : lo < hi
    · rw [if_pos h] at hi2
      have hl := mid_lb h
      have hu := mid_ub h
      by_cases hm : lexLt (a.getD ((lo + hi) / 2) []) x = true
      · rw [if_pos hm] at hi2
        rcases Nat.lt_or_ge i ((lo + hi) / 2 + 1) with hcase | hcase
        · have hle : lexLt (a.getD ((lo + hi) / 2) []) (a.getD i []) = false :=
            hsorted.le_of_le (by omega) (by omega)
          exact lexLt_of_le_of_lt hle hm
        · exact ih ((lo + hi) / 2 + 1) hi (by omega) (by omega) hha i hcase hi2
      · rw [if_neg hm] at hi2
        exact ih lo ((lo + hi) / 2) (by omega) (by omega) (by omega) i hi1 hi2
    · rw [if_neg h] at hi2
      omega

/-- `bisect_left` invariant: on a sorted list no element at or after the
returned position (inside the search interval) is strictly below the needle. -/
theorem bisectF_not_lt_from (a : List Line) (x : Line) (hsorted : SortedLe a) :
    ∀ (fuel lo hi : Nat), hi - lo ≤ fuel → lo ≤ hi → hi ≤ a.length →
      ∀ i, bisectF fuel a x lo hi ≤ i → i < hi → lexLt (a.getD i []) x = false := by
  intro fuel
  induction fuel with
  | zero =>
    intro lo hi hf hlh _ i hi1 hi2
    simp only [bisectF] at hi1
    omega
  | succ n ih =>
    intro lo hi hf hlh hha i hi1 hi2
    simp only [bisectF] at hi1
    by_cases h : lo < hi
    · rw [if_pos h] at hi1
      have hl := mid_lb h
      have hu := mid_ub h
      by_cases hm : lexLt (a.getD ((lo + hi) / 2) []) x = true
      · rw [if_pos hm] at hi1
        exact ih ((lo + hi) / 2 + 1) hi (by omega) (by omega) hha i hi1 hi2
      · rw [if_neg hm] at hi1
        rcases Nat.lt_or_ge i ((lo + hi) / 2) with hcase | hcase
        · exact ih lo ((lo + hi) / 2) (by omega) (by omega) (by omega) i hi1 hcase
        · have hle : lexLt (a.getD i []) (a.getD ((lo + hi) / 2) []) = false :=
            hsorted.le_of_le hcase (by omega)
          apply bool_eq_false
          intro htrue
          have := lexLt_of_le_of_lt hle htrue
          rw [bool_eq_false hm] at this
          exact absurd this (by decide)
    · rw [if_neg h] at hi1
      omega

/-- The search string that `objectify_cdxj_data` derives from a data line:
`line.split(' ', 2)` unpacked into `(surt, datetime, the_rest)`, recombined
as `"{surt} {datetime}"`, or just `surt` when `only_uri`. -/
def searchStr (only_uri : Bool) (l : Line) : Line :=
  if only_uri then field0 l else field0 l ++ ' ' :: field1 l

/-- replay.objectify_cdxj_data: partition the raw index lines into leading
metadata lines (starting with `!`) and the per-record search strings,
stopping at the first blank line.  The Python dict
`{'metadata': [...], 'data': [...]}` is modelled as a pair
(metadata, data). -/
def objectify_cdxj_data : List Line → Bool → List Line × List Line
  | [], _ => ([], [])
  | line :: ls, only_uri =>
    if isBlank line then ([], [])
    else if leadsWith ['!'] line = false then
      ((objectify_cdxj_data ls only_uri).1,
        searchStr only_uri line :: (objectify_cdxj_data ls only_uri).2)
    else
      (line :: (objectify_cdxj_data ls only_uri).1,
        (objectify_cdxj_data ls only_uri).2)

/-- The local variables of replay.binary_search:
`surt_uris_and_datetimes`, `meta_line_count` and `pos`. -/
def bsKeys (haystack : List Line) (only_uri : Bool) : List Line :=
  (objectify_cdxj_data haystack only_uri).2

def bsMetaCount (haystack : List Line) (only_uri : Bool) : Nat :=
  (objectify_cdxj_data haystack only_uri).1.length

def bsPos (haystack : List Line) (needle : Line) (only_uri : Bool) : Nat :=
  bisect_left (bsKeys haystack only_uri) needle 0 (bsKeys haystack only_uri).length

/-- replay.binary_search.  The Python function returns either
`pos + meta_line_count` (when `returnIndex`), the full line at that absolute
index, or `None`; the union result type is modelled as `Option (Nat ⊕ Line)`. -/
def binary_search (haystack : List Line) (needle : Line)
    (returnIndex : Bool) (only_uri : Bool) : Option (Nat ⊕ Line) :=
  if bsPos haystack needle only_uri ≠ (bsKeys haystack only_uri).length ∧
      (bsKeys haystack only_uri).getD (bsPos haystack needle only_uri) [] = needle then
    if returnIndex then
      some (Sum.inl (bsPos haystack needle only_uri + bsMetaCount haystack only_uri))
    else
      some (Sum.inr (haystack.getD
        (bsPos haystack needle only_uri + bsMetaCount haystack only_uri) []))
  else none

/-- A well-formed CDXJ index: `meta` is the leading block of metadata lines
(each starting with `!`), `data` the CDXJ data lines (non-blank, not starting
with `!`, with at least three space-separated fields so that the Python
unpacking `line.split(' ', 2)` succeeds). -/
structure IndexShape (meta data : List Line) : Prop where
  meta_bang : ∀ m ∈ meta, leadsWith ['!'] m = true
  data_not_bang : ∀ l ∈ data, leadsWith ['!'] l = false
  data_not_blank : ∀ l ∈ data, isBlank l = false
  data_wf : ∀ l ∈ data, 3 ≤ (splitOnChar ' ' l).length

theorem leadsWith_single {c : Char} {l : Line} (h : leadsWith [c] l = true) :
    ∃ rest, l = c :: rest := by
  cases l with
  | nil => simp [leadsWith] at h
  | cons d ds =>
    simp only [leadsWith, Bool.and_eq_true, decide_eq_true_eq] at h
    exact ⟨ds, by rw [h.1]⟩

theorem isBlank_of_bang {m : Line} (h : leadsWith ['!'] m = true) : isBlank m = false := by
  rcases leadsWith_single h with ⟨rest, hrest⟩
  subst hrest
  exact isBlank_cons_of_not_space rest (by decide)

theorem objectify_data_only {data : List Line} (ou : Bool)
    (h1 : ∀ l ∈ data, leadsWith ['!'] l = false)
    (h2 : ∀ l ∈ data, isBlank l = false) :
    objectify_cdxj_data data ou = ([], data.map (searchStr ou)) := by
  induction data with
  | nil => rfl
  | cons l ls ih =>
    simp only [objectify_cdxj_data]
    rw [h2 l (by simp), h1 l (by simp)]
    rw [if_neg (by simp), if_pos rfl]
    rw [ih (fun x hx => h1 x (by simp [hx])) (fun x hx => h2 x (by simp [hx]))]
    simp

theorem objectify_cdxj_data_shape {meta data : List Line} (hs : IndexShape meta data)
    (ou : Bool) :
    objectify_cdxj_data (meta ++ data) ou = (meta, data.map (searchStr ou)) := by
  induction meta with
  | nil =>
    simp only [List.nil_append]
    exact objectify_data_only ou hs.data_not_bang hs.data_not_blank
  | cons m ms ih =>
    have hm := hs.meta_bang m (by simp)
    have hshape' : IndexShape ms data :=
      ⟨fun x hx => hs.meta_bang x (by simp [hx]), hs.data_not_bang,
        hs.data_not_blank, hs.data_wf⟩
    have ih' := ih hshape'
    simp only [List.cons_append, objectify_cdxj_data]
    rw [isBlank_of_bang hm, hm]
    rw [if_neg (by simp), if_neg (by simp)]
    rw [show List.append ms data = ms ++ data from rfl, ih']

theorem getD_append_meta {meta data : List Line} {pos : Nat} (h : pos < data.length) :
    (meta ++ data).getD (pos + meta.length) [] = data.getD pos [] := by
  have hidx : pos + meta.length < (meta ++ data).length := by
    rw [List.length_append]
    omega
  rw [getD_eq_of_lt _ [] hidx, getD_eq_of_lt _ [] h]
  rw [List.getElem_append_right (by omega)]
  simp

theorem bsKeys_eq {meta data : List Line} (hs : IndexShape meta data) (ou : Bool) :
    bsKeys (meta ++ data) ou = data.map (searchStr ou) := by
  unfold bsKeys
  rw [objectify_cdxj_data_shape hs]

theorem bsMetaCount_eq {meta data : List Line} (hs : IndexShape meta data) (ou : Bool) :
    bsMetaCount (meta ++ data) ou = meta.length := by
  unfold bsMetaCount
  rw [objectify_cdxj_data_shape hs]

/-- `binary_search` misses (returns `None`) when no data line carries the
needle as its search string: the guard `surt_uris_and_datetimes[pos] == needle`
can never hold. -/
theorem binary_search_miss {meta data : List Line} (hs : IndexShape meta data)
    {needle : Line} (ri ou : Bool)
    (hnone : ∀ l ∈ data, searchStr ou l ≠ needle) :
    binary_search (meta ++ data) needle ri ou = none := by
  unfold binary_search
  apply if_neg
  rintro ⟨hne, heq⟩
  rw [bsKeys_eq hs] at hne heq
  unfold bsPos at hne heq
  rw [bsKeys_eq hs] at hne heq
  have hb := bisectF_bounds (data.map (searchStr ou)) needle
    ((data.map (searchStr ou)).length - 0) 0 (data.map (searchStr ou)).length
    (le_refl _) (Nat.zero_le _)
  have hlt : bisect_left (data.map (searchStr ou)) needle 0
      (data.map (searchStr ou)).length < (data.map (searchStr ou)).length :=
    lt_of_le_of_ne hb.2 hne
  rw [getD_eq_of_lt _ [] hlt, List.getElem_map (searchStr ou)] at heq
  exact hnone _ (List.getElem_mem _) heq

/-- `binary_search` hit characterization: if some data line matches the
needle, the leftmost bisection position `pos` is a match, everything below
it is not, and the function returns `pos + meta_line_count` (resp. the line
at that absolute index). -/
theorem binary_search_hit {meta data : List Line} (hs : IndexShape meta data)
    {needle : Line} {ou : Bool}
    (hsorted : SortedLe (data.map (searchStr ou)))
    {j : Nat} (hj : j < data.length) (hjeq : searchStr ou (data.getD j []) = needle) :
    ∃ pos, pos < data.length ∧ pos ≤ j ∧
      bsPos (meta ++ data) needle ou = pos ∧
      searchStr ou (data.getD pos []) = needle ∧
      (∀ i < pos, searchStr ou (data.getD i []) ≠ needle) ∧
      (∀ ri : Bool, binary_search (meta ++ data) needle ri ou =
        if ri then some (Sum.inl (pos + meta.length))
        else some (Sum.inr (data.getD pos []))) := by
  have hkeq : bsKeys (meta ++ data) ou = data.map (searchStr ou) := bsKeys_eq hs ou
  have hklen : (data.map (searchStr ou)).length = data.length := List.length_map data _
  have hkey_at : ∀ i, i < data.length →
      (data.map (searchStr ou)).getD i [] = searchStr ou (data.getD i []) := by
    intro i hi
    rw [getD_eq_of_lt _ [] (by omega), getD_eq_of_lt _ [] hi, List.getElem_map (searchStr ou)]
  have hpos_def : bsPos (meta ++ data) needle ou =
      bisect_left (data.map (searchStr ou)) needle 0 (data.map (searchStr ou)).length := by
    unfold bsPos
    rw [hkeq]
  set pos := bisect_left (data.map (searchStr ou)) needle 0 (data.map (searchStr ou)).length
    with hposdef
  have hbelow : ∀ i, i < pos → lexLt ((data.map (searchStr ou)).getD i []) needle = true := by
    intro i hi
    exact bisectF_lt_below _ needle hsorted _ 0 _ (le_refl _) (Nat.zero_le _)
      (le_refl _) i (Nat.zero_le _) hi
  have hposj : pos ≤ j := by
    by_contra hc
    push_neg at hc
    have := hbelow j hc
    rw [hkey_at j hj, hjeq] at this
    rw [lexLt_irrefl] at this
    exact absurd this (by decide)
  have hposlt : pos < data.length := lt_of_le_of_lt hposj hj
  have hat : lexLt ((data.map (searchStr ou)).getD pos []) needle = false :=
    bisectF_not_lt_from _ needle hsorted _ 0 _ (le_refl _) (Nat.zero_le _)
      (le_refl _) pos (le_refl _) (by omega)
  have hle : lexLt ((data.map (searchStr ou)).getD j [])
      ((data.map (searchStr ou)).getD pos []) = false :=
    hsorted.le_of_le hposj (by omega)
  rw [hkey_at j hj, hjeq] at hle
  have hpos_eq : searchStr ou (data.getD pos []) = needle := by
    rw [← hkey_at pos hposlt]
    exact lexLt_antisymm hat hle
  refine ⟨pos, hposlt, hposj, by rw [hpos_def], hpos_eq, ?_, ?_⟩
  · intro i hi
    have := hbelow i hi
    rw [hkey_at i (by omega)] at this
    exact lexLt_ne this
  · intro ri
    unfold binary_search
    rw [if_pos]
    · rw [bsMetaCount_eq hs]
      cases ri with
      | false =>
        rw [if_neg (by simp), if_neg (by simp)]
        rw [hpos_def]
        exact congrArg (fun l => some (Sum.inr l)) (getD_append_meta hposlt)
      | true => rw [if_pos rfl, if_pos rfl, hpos_def]
    · constructor
      · rw [hkeq, hpos_def]
        omega
      · rw [hkeq, hpos_def, hkey_at pos hposlt]
        exact hpos_eq

/-- Claim C1: on an index whose data lines are sorted, `binary_search`
returns a record only when some data line's search field (key, or key plus
timestamp) equals the needle exactly; when no data line matches it returns
`None` (a miss, never a nearest record); and when a matching data line
exists it returns one. -/
theorem claim1_binary_search_exact (meta data : List Line) (needle : Line) (ri ou : Bool)
    (hshape : IndexShape meta data)
    (hsorted : SortedLe (data.map (searchStr ou))) :
    (∀ r, binary_search (meta ++ data) needle ri ou = some r →
      ∃ l ∈ data, searchStr ou l = needle) ∧
    ((∀ l ∈ data, searchStr ou l ≠ needle) →
      binary_search (meta ++ data) needle ri ou = none) ∧
    ((∃ l ∈ data, searchStr ou l = needle) →
      ∃ l ∈ data, searchStr ou l = needle ∧
        binary_search (meta ++ data) needle false ou = some (Sum.inr l)) := by
  refine ⟨?_, fun h => binary_search_miss hshape ri ou h, ?_⟩
  · intro r hr
    by_contra hno
    push_neg at hno
    rw [binary_search_miss hshape ri ou hno] at hr
    simp at hr
  · rintro ⟨l, hl, hleq⟩
    obtain ⟨j, hj, hjl⟩ := List.mem_iff_getElem.mp hl
    have hjeq : searchStr ou (data.getD j []) = needle := by
      rw [getD_eq_of_lt _ [] hj, hjl]
      exact hleq
    obtain ⟨pos, hposlt, _, _, hpos_eq, _, hres⟩ :=
      binary_search_hit hshape hsorted hj hjeq
    refine ⟨data.getD pos [], ?_, hpos_eq, ?_⟩
    · rw [getD_eq_of_lt _ [] hposlt]
      exact List.getElem_mem _
    · simpa using hres false

/-- Witness for C1: a concrete sorted two-record index with one metadata
line; the needle is absent, so the search misses. -/
theorem claim1_witness :
    (∀ l ∈ [str ("com,a)/ 20190101000000 ja"), str ("com,b)/ 20200101000000 jb")],
      searchStr true l ≠ str ("com,c)/")) ∧
    binary_search
      (str ("!context x") ::
        [str ("com,a)/ 20190101000000 ja"), str ("com,b)/ 20200101000000 jb")])
      (str ("com,c)/")) true true = none :=
  ⟨by decide,
    (claim1_binary_search_exact [str ("!context x")]
      [str ("com,a)/ 20190101000000 ja"), str ("com,b)/ 20200101000000 jb")]
      (str ("com,c)/")) true true
      ⟨by decide, by decide, by decide, by decide⟩ (by decide)).2.1 (by decide)⟩

/-- replay.get_cdxj_lines_with_urir, with the SURT key `s` already computed
(the Python function derives it from `urir` via the external `surt` library)
and the index content already split into lines.  The base line is fetched at
the absolute index returned by `binary_search(..., True, True)`.  The
backward while-loop visits indices idx-1, idx-2, …, 0 and appends every
line whose first field equals `s` in that descending order — the reverse of
filtering the prefix; the forward loop appends matches at idx+1 … end in
ascending order. -/
def get_cdxj_lines_with_urir (s : Line) (cdxj_lines : List Line) : List Line :=
  match binary_search cdxj_lines s true true with
  | some (Sum.inl cdxj_line_index) =>
    cdxj_lines.getD cdxj_line_index [] ::
      (((cdxj_lines.take cdxj_line_index).filter (fun l => field0 l == s)).reverse ++
        (cdxj_lines.drop (cdxj_line_index + 1)).filter (fun l => field0 l == s))
  | _ => []

theorem get_cdxj_lines_hit_eq {s : Line} {cdxj_lines : List Line} {idx : Nat}
    (h : binary_search cdxj_lines s true true = some (Sum.inl idx)) :
    get_cdxj_lines_with_urir s cdxj_lines =
      cdxj_lines.getD idx [] ::
        (((cdxj_lines.take idx).filter (fun l => field0 l == s)).reverse ++
          (cdxj_lines.drop (idx + 1)).filter (fun l => field0 l == s)) := by
  unfold get_cdxj_lines_with_urir
  rw [h]

theorem get_cdxj_lines_miss_eq {s : Line} {cdxj_lines : List Line}
    (h : binary_search cdxj_lines s true true = none) :
    get_cdxj_lines_with_urir s cdxj_lines = [] := by
  unfold get_cdxj_lines_with_urir
  rw [h]

theorem field0_bang {m : Line} (h : leadsWith ['!'] m = true) :
    ∃ rest, field0 m = '!' :: rest := by
  rcases leadsWith_single h with ⟨r, hr⟩
  subst hr
  unfold field0
  rw [splitOnChar_cons_ne r (by decide)]
  exact ⟨_, rfl⟩

theorem field0_meta_ne {m s : Line} (hm : leadsWith ['!'] m = true)
    (hsb : leadsWith ['!'] s = false) : field0 m ≠ s := by
  rcases field0_bang hm with ⟨r, hr⟩
  rw [hr]
  intro he
  rw [← he] at hsb
  simp [leadsWith] at hsb

/-- A well-formed CDXJ data line decomposes as
`key ++ ' ' ++ timestamp ++ ' ' ++ json`. -/
theorem data_line_decomp {l : Line} (h : 3 ≤ (splitOnChar ' ' l).length) :
    ∃ rest, l = field0 l ++ ' ' :: (field1 l ++ ' ' :: rest) ∧
      ' ' ∉ field0 l ∧ ' ' ∉ field1 l := by
  have hj := joinWith_splitOnChar ' ' l
  cases hp : splitOnChar ' ' l with
  | nil => exact absurd hp (splitOnChar_ne_nil ' ' l)
  | cons p0 ps =>
    cases ps with
    | nil => rw [hp] at h; simp at h
    | cons p1 ps2 =>
      cases ps2 with
      | nil => rw [hp] at h; simp at h
      | cons p2 ps3 =>
        rw [hp] at hj
        have hf0 : field0 l = p0 := by unfold field0; rw [hp]; rfl
        have hf1 : field1 l = p1 := by unfold field1; rw [hp]; rfl
        refine ⟨joinWith [' '] (p2 :: ps3), ?_, ?_, ?_⟩
        · rw [hf0, hf1, ← hj]
          simp [joinWith]
        · rw [hf0]
          exact splitOnChar_not_mem p0 (by rw [hp]; simp)
        · rw [hf1]
          exact splitOnChar_not_mem p1 (by rw [hp]; simp)

/-- Claim C2: with any number of leading metadata lines, the adjacency scan
around the binary-search pivot returns exactly the data lines whose key
field equals the queried SURT key, in index order — hence in ascending
timestamp order — and the absolute index returned by the binary search is
the data-line position plus the metadata-line count, so the pivot line has
the queried key. -/
theorem claim2_adjacency_scan (meta data : List Line) (s : Line)
    (hshape : IndexShape meta data)
    (hkeys : SortedLe (data.map (searchStr true)))
    (hlines : SortedLe data)
    (hts : ∀ l ∈ data, (field1 l).length = 14)
    (hsb : leadsWith ['!'] s = false) :
    get_cdxj_lines_with_urir s (meta ++ data) =
      data.filter (fun l => field0 l == s) ∧
    SortedLe ((data.filter (fun l => field0 l == s)).map field1) ∧
    (∀ idx, binary_search (meta ++ data) s true true = some (Sum.inl idx) →
      ∃ pos, pos < data.length ∧ idx = pos + meta.length ∧
        (meta ++ data).getD idx [] = data.getD pos [] ∧
        field0 (data.getD pos []) = s) := by
  have hmeta_ne : ∀ m ∈ meta, (field0 m == s) = false := by
    intro m hm
    rw [beq_eq_false_iff_ne]
    exact field0_meta_ne (hshape.meta_bang m hm) hsb
  have hsorted_f : SortedLe ((data.filter (fun l => field0 l == s)).map field1) := by
    refine List.pairwise_map.mpr ?_
    have hf : (data.filter (fun l => field0 l == s)).Pairwise
        (fun u v => lexLt v u = false) := hlines.filter _
    refine hf.imp_of_mem ?_
    intro u v hu hv huv
    have hu0 : field0 u = s := by
      have := List.of_mem_filter hu
      simpa using this
    have hv0 : field0 v = s := by
      have := List.of_mem_filter hv
      simpa using this
    have hu_mem : u ∈ data := List.mem_of_mem_filter hu
    have hv_mem : v ∈ data := List.mem_of_mem_filter hv
    obtain ⟨ru, hru, _, _⟩ := data_line_decomp (hshape.data_wf u hu_mem)
    obtain ⟨rv, hrv, _, _⟩ := data_line_decomp (hshape.data_wf v hv_mem)
    rw [hru, hrv, hu0, hv0] at huv
    have hcancel := lexLt_append_left (s ++ [' ']) (field1 v ++ ' ' :: rv)
      (field1 u ++ ' ' :: ru)
    simp only [List.append_assoc, List.singleton_append] at hcancel
    rw [hcancel] at huv
    exact lexLt_block_le (by rw [hts u hu_mem, hts v hv_mem]) huv
  by_cases hex : ∃ l ∈ data, field0 l = s
  · obtain ⟨l, hl, hleq⟩ := hex
    obtain ⟨j, hj, hjl⟩ := List.mem_iff_getElem.mp hl
    have hjeq : searchStr true (data.getD j []) = s := by
      rw [getD_eq_of_lt _ [] hj, hjl]
      exact hleq
    obtain ⟨pos, hposlt, hposj, hbspos, hposeq, hbelow, hres⟩ :=
      binary_search_hit hshape hkeys hj hjeq
    have hbin : binary_search (meta ++ data) s true true =
        some (Sum.inl (pos + meta.length)) := by simpa using hres true
    have htake_data_nil : (data.take pos).filter (fun l => field0 l == s) = [] := by
      rw [List.filter_eq_nil_iff]
      intro l' hl'
      obtain ⟨i, hi, hieq⟩ := List.mem_iff_getElem.mp hl'
      have hipos : i < pos := by
        have := hi
        rw [List.length_take] at this
        omega
      have hilen : i < data.length := by omega
      have := hbelow i hipos
      rw [getD_eq_of_lt _ [] hilen] at this
      rw [← hieq, List.getElem_take]
      simpa using this
    have hfilter_meta_nil : meta.filter (fun l => field0 l == s) = [] := by
      rw [List.filter_eq_nil_iff]
      intro m hm
      simp [hmeta_ne m hm]
    have hpos_key : field0 (data.getD pos []) = s := hposeq
    have hdata_filter : data.filter (fun l => field0 l == s) =
        data.getD pos [] :: (data.drop (pos + 1)).filter (fun l => field0 l == s) := by
      conv_lhs => rw [← List.take_append_drop pos data]
      rw [List.filter_append, htake_data_nil, List.drop_eq_getElem_cons hposlt,
        List.filter_cons]
      rw [if_pos (by rw [← getD_eq_of_lt _ [] hposlt, hpos_key]; simp)]
      rw [getD_eq_of_lt _ [] hposlt]
      rfl
    refine ⟨?_, hsorted_f, ?_⟩
    · rw [get_cdxj_lines_hit_eq hbin]
      have htake : (meta ++ data).take (pos + meta.length) = meta ++ data.take pos := by
        rw [Nat.add_comm, List.take_append]
      have hdrop : (meta ++ data).drop (pos + meta.length + 1) = data.drop (pos + 1) := by
        rw [show pos + meta.length + 1 = meta.length + (pos + 1) by omega, List.drop_append]
      rw [getD_append_meta hposlt, htake, hdrop, List.filter_append,
        hfilter_meta_nil, htake_data_nil, hdata_filter]
      rfl
    · intro idx h
      rw [hbin] at h
      simp only [Option.some.injEq, Sum.inl.injEq] at h
      exact ⟨pos, hposlt, h.symm, by rw [← h]; exact getD_append_meta hposlt, hpos_key⟩
  · push_neg at hex
    have hnone : ∀ l ∈ data, searchStr true l ≠ s := fun l hl => hex l hl
    have hmiss := binary_search_miss hshape true true hnone
    have hfilter_nil : data.filter (fun l => field0 l == s) = [] := by
      rw [List.filter_eq_nil_iff]
      intro l hl
      simp [hex l hl]
    refine ⟨?_, hsorted_f, ?_⟩
    · rw [get_cdxj_lines_miss_eq hmiss, hfilter_nil]
    · intro idx h
      rw [hmiss] at h
      simp at h

def c2meta : List Line := [str ("!meta x")]

def c2data : List Line :=
  [str ("com,a)/ 20180101000000 x"),
   str ("com,b)/ 20190101000000 y"),
   str ("com,b)/ 20200101000000 z"),
   str ("com,c)/ 20210101000000 w")]

/-- Witness for C2: a concrete index with one metadata line and two records
for the queried key; the scan returns exactly those two, in ascending
timestamp order. -/
theorem claim2_witness :
    get_cdxj_lines_with_urir (str ("com,b)/")) (c2meta ++ c2data) =
      [str ("com,b)/ 20190101000000 y"), str ("com,b)/ 20200101000000 z")] ∧
    SortedLe ((c2data.filter (fun l => field0 l == str ("com,b)/"))).map field1) := by
  have h := claim2_adjacency_scan c2meta c2data (str ("com,b)/"))
    ⟨by decide, by decide, by decide, by decide⟩ (by decide) (by decide)
    (by decide) (by decide)
  exact ⟨h.1.trans (by decide), h.2.1⟩

/-- Python `int(s)` restricted to non-empty all-digit strings (the only
shape a CDXJ timestamp can have); any other character raises `ValueError`,
modelled as `none`.  (Python additionally accepts signs and surrounding
whitespace; those never occur in the timestamp field of a well-formed
index and are out of the modelled domain.) -/
def digitVal (c : Char) : Option Nat :=
  if '0' ≤ c && c ≤ '9' then some (c.toNat - 48) else none

def pyIntDecGo : Line → Nat → Option Nat
  | [], acc => some acc
  | c :: cs, acc =>
    match digitVal c with
    | none => none
    | some d => pyIntDecGo cs (acc * 10 + d)

def pyIntDec : Line → Option Nat
  | [] => none
  | c :: cs => pyIntDecGo (c :: cs) 0

/-- `smallest_diff` starts at `float('inf')`: `none` models infinity. -/
def infLt (d : Nat) : Option Nat → Bool
  | none => true
  | some d' => decide (d < d')

/-- The absolute timestamp difference `abs(dt - datetime_target)` of a line. -/
def tsDiff (target : Int) (l : Line) : Nat :=
  ((((pyIntDec (field1 l)).getD 0 : Nat) : Int) - target).natAbs

/-- The loop of replay.get_cdxj_line_closest_to: `smallest_diff` and
`best_line` accumulate; `int(...)` failure (ValueError) is the outer
`none`. -/
def closestLoop (target : Int) : List Line → Option Nat → Option Line → Option (Option Line)
  | [], _, best => some best
  | cdxj_line :: ls, smallest_diff, best_line =>
    match pyIntDec (field1 cdxj_line) with
    | none => none
    | some dt =>
      if infLt (((dt : Int) - target).natAbs) smallest_diff then
        closestLoop target ls (some (((dt : Int) - target).natAbs)) (some cdxj_line)
      else
        closestLoop target ls smallest_diff best_line

/-- replay.get_cdxj_line_closest_to.  The outer `Option` is the exception
channel of `int(...)`; the inner one is `best_line` (possibly `None`). -/
def get_cdxj_line_closest_to (datetime_target : Line) (cdxj_lines : List Line) :
    Option (Option Line) :=
  match pyIntDec datetime_target with
  | none => none
  | some t => closestLoop (t : Int) cdxj_lines none none

theorem infLt_of_lt_of_infLt {d d' : Nat} {sd : Option Nat} (h : d < d')
    (h2 : infLt d' sd = true) : infLt d sd = true := by
  cases sd with
  | none => rfl
  | some v =>
    simp only [infLt, decide_eq_true_eq] at h2 ⊢
    omega

theorem lt_of_infLt_of_not_infLt {d d' : Nat} {sd : Option Nat}
    (h : infLt d sd = true) (h2 : infLt d' sd = false) : d < d' := by
  cases sd with
  | none => simp [infLt] at h2
  | some v =>
    simp only [infLt, decide_eq_true_eq, decide_eq_false_iff_not] at h h2
    omega

theorem closestLoop_spec (target : Int) :
    ∀ (ls : List Line) (sd : Option Nat) (best : Option Line),
      (∀ l ∈ ls, (pyIntDec (field1 l)).isSome = true) →
      ((∀ l ∈ ls, infLt (tsDiff target l) sd = false) ∧
          closestLoop target ls sd best = some best) ∨
        (∃ i, ∃ hi : i < ls.length,
          closestLoop target ls sd best = some (some ls[i]) ∧
          infLt (tsDiff target ls[i]) sd = true ∧
          (∀ j, (hj : j < ls.length) → j < i →
            tsDiff target ls[i] < tsDiff target ls[j]) ∧
          (∀ j, (hj : j < ls.length) → i < j →
            tsDiff target ls[i] ≤ tsDiff target ls[j])) := by
  intro ls
  induction ls with
  | nil =>
    intro sd best _
    exact Or.inl ⟨by simp, rfl⟩
  | cons l0 rest ih =>
    intro sd best hwf
    obtain ⟨dt0, hdt0⟩ := Option.isSome_iff_exists.mp (hwf l0 (by simp))
    have hd0 : tsDiff target l0 = (((dt0 : Nat) : Int) - target).natAbs := by
      unfold tsDiff
      rw [hdt0]
      rfl
    simp only [closestLoop, hdt0]
    by_cases hc : infLt (((dt0 : Nat) : Int) - target).natAbs sd = true
    · rw [if_pos hc]
      rcases ih (some (((dt0 : Nat) : Int) - target).natAbs) (some l0)
          (fun x hx => hwf x (by simp [hx])) with
        ⟨hall, heq⟩ | ⟨i, hi, heq, himp, hbef, haft⟩
      · refine Or.inr ⟨0, by simp, by simpa using heq,
          by simp only [List.getElem_cons_zero]; rw [hd0]; exact hc, ?_, ?_⟩
        · intro j hj hlt
          omega
        · intro j hj hlt
          cases j with
          | zero => omega
          | succ j' =>
            have hj' : j' < rest.length := by
              simp only [List.length_cons] at hj
              omega
            have hmem : rest[j'] ∈ rest := List.getElem_mem hj'
            have := hall rest[j'] hmem
            have hge : ¬ (tsDiff target rest[j'] <
                (((dt0 : Nat) : Int) - target).natAbs) := by
              simp only [infLt, decide_eq_false_iff_not] at this
              exact this
            simp only [List.getElem_cons_zero, List.getElem_cons_succ, hd0]
            omega
      · have himp2 : tsDiff target rest[i] < (((dt0 : Nat) : Int) - target).natAbs := by
          simpa [infLt] using himp
        refine Or.inr ⟨i + 1, by simpa using Nat.succ_lt_succ hi, by simpa using heq,
          by simpa using infLt_of_lt_of_infLt himp2 hc, ?_, ?_⟩
        · intro j hj hlt
          cases j with
          | zero =>
            simp only [List.getElem_cons_zero, List.getElem_cons_succ, hd0]
            exact himp2
          | succ j' =>
            simp only [List.getElem_cons_succ]
            exact hbef j' (by simp only [List.length_cons] at hj; omega) (by omega)
        · intro j hj hlt
          cases j with
          | zero => omega
          | succ j' =>
            simp only [List.getElem_cons_succ]
            exact haft j' (by simp only [List.length_cons] at hj; omega) (by omega)
    · have hc' : infLt (((dt0 : Nat) : Int) - target).natAbs sd = false := bool_eq_false hc
      rw [if_neg hc]
      rcases ih sd best (fun x hx => hwf x (by simp [hx])) with
        ⟨hall, heq⟩ | ⟨i, hi, heq, himp, hbef, haft⟩
      · refine Or.inl ⟨?_, heq⟩
        intro x hx
        rcases List.mem_cons.mp hx with hx | hx
        · subst hx
          rw [hd0]
          exact hc'
        · exact hall x hx
      · have hl0f : infLt (tsDiff target l0) sd = false := by
          rw [hd0]
          exact hc'
        refine Or.inr ⟨i + 1, by simpa using Nat.succ_lt_succ hi, by simpa using heq,
          by simpa using himp, ?_, ?_⟩
        · intro j hj hlt
          cases j with
          | zero =>
            simp only [List.getElem_cons_zero, List.getElem_cons_succ]
            exact lt_of_infLt_of_not_infLt himp hl0f
          | succ j' =>
            simp only [List.getElem_cons_succ]
            exact hbef j' (by simp only [List.length_cons] at hj; omega) (by omega)
        · intro j hj hlt
          cases j with
          | zero => omega
          | succ j' =>
            simp only [List.getElem_cons_succ]
            exact haft j' (by simp only [List.length_cons] at hj; omega) (by omega)

/-- Claim C3: for a non-empty list of records with numeric timestamps the
resolver returns the record minimizing `abs(timestamp - target)`; under the
strict `<` comparison the first record encountered wins ties (every earlier
record has a strictly larger difference, every later one at least as
large). -/
theorem claim3_closest_timestamp (cdxj_lines : List Line) (datetime_target : Line)
    (hwf : ∀ l ∈ cdxj_lines, (pyIntDec (field1 l)).isSome = true)
    (hne : cdxj_lines ≠ []) {t : Nat} (ht : pyIntDec datetime_target = some t) :
    ∃ i, ∃ hi : i < cdxj_lines.length,
      get_cdxj_line_closest_to datetime_target cdxj_lines = some (some cdxj_lines[i]) ∧
      (∀ j, (hj : j < cdxj_lines.length) →
        tsDiff (t : Int) cdxj_lines[i] ≤ tsDiff (t : Int) cdxj_lines[j]) ∧
      (∀ j, (hj : j < cdxj_lines.length) → j < i →
        tsDiff (t : Int) cdxj_lines[i] < tsDiff (t : Int) cdxj_lines[j]) := by
  unfold get_cdxj_line_closest_to
  rw [ht]
  rcases closestLoop_spec (t : Int) cdxj_lines none none hwf with
    ⟨hall, heq⟩ | ⟨i, hi, heq, _, hbef, haft⟩
  · cases cdxj_lines with
    | nil => exact absurd rfl hne
    | cons a as =>
      have := hall a (by simp)
      simp [infLt] at this
  · refine ⟨i, hi, heq, ?_, hbef⟩
    intro j hj
    rcases lt_trichotomy j i with h | h | h
    · exact le_of_lt (hbef j hj h)
    · subst h
      exact le_refl _
    · exact haft j hj h

def c3lines : List Line :=
  [str ("k 10 x"), str ("k 20 x"), str ("k 30 x")]

/-- Witness for C3, including the spec's concrete cases: records at
timestamps 10, 20, 30; a target of 21 resolves to 20 (difference 1), and a
target of 25 — a tie between 20 and 30 — also resolves to 20 because the
first record encountered wins under strict less-than. -/
theorem claim3_witness :
    (∃ i, ∃ hi : i < c3lines.length,
      get_cdxj_line_closest_to (str ("21")) c3lines = some (some c3lines[i]) ∧
      (∀ j, (hj : j < c3lines.length) →
        tsDiff (21 : Int) c3lines[i] ≤ tsDiff (21 : Int) c3lines[j]) ∧
      (∀ j, (hj : j < c3lines.length) → j < i →
        tsDiff (21 : Int) c3lines[i] < tsDiff (21 : Int) c3lines[j])) ∧
    get_cdxj_line_closest_to (str ("21")) c3lines = some (some (str ("k 20 x"))) ∧
    get_cdxj_line_closest_to (str ("25")) c3lines = some (some (str ("k 20 x"))) :=
  ⟨claim3_closest_timestamp c3lines (str ("21")) (by decide) (by decide) (by decide),
    by decide, by decide⟩

/-- Hexadecimal digit value, as accepted by Python `int(s, 16)`. -/
def hexDigitVal (c : Char) : Option Nat :=
  if '0' ≤ c && c ≤ '9' then some (c.toNat - 48)
  else if 'a' ≤ c && c ≤ 'f' then some (c.toNat - 87)
  else if 'A' ≤ c && c ≤ 'F' then some (c.toNat - 55)
  else none

def toNatHexGo : Line → Nat → Option Nat
  | [], acc => some acc
  | c :: cs, acc =>
    match hexDigitVal c with
    | none => none
    | some d => toNatHexGo cs (acc * 16 + d)

/-- Python `int(s, 16)` on plain hex-digit strings.  Other spellings Python
would also accept (`0x` prefixes, signs, underscores, inner whitespace)
never occur in chunk-size lines produced by HTTP chunked encoding and are
outside the modelled domain; they map to `none` (= ValueError) here. -/
def toNatHex : Line → Option Nat
  | [] => none
  | c :: cs => toNatHexGo (c :: cs) 0

/-- Python `s.split(sep, 1)` unpacked into exactly two names: `none` models
the ValueError raised when `sep` does not occur. -/
def splitOnce (sep : Char) : Line → Option (Line × Line)
  | [] => none
  | c :: cs =>
    if c = sep then some ([], cs)
    else
      match splitOnce sep cs with
      | none => none
      | some (a, b) => some (c :: a, b)

theorem splitOnce_append {sep : Char} {x : Line} (y : Line) (hx : sep ∉ x) :
    splitOnce sep (x ++ sep :: y) = some (x, y) := by
  induction x with
  | nil => simp [splitOnce]
  | cons c cs ih =>
    have hc : c ≠ sep := fun h => hx (by simp [h])
    have hcs : sep ∉ cs := fun h => hx (List.mem_cons_of_mem c h)
    simp only [List.cons_append, splitOnce, List.append_eq]
    rw [if_neg hc, ih hcs]

/-- Python `s.split(sep, 2)` unpacked into exactly three names: `none`
models the ValueError raised when `sep` occurs fewer than two times. -/
def splitTwice (sep : Char) (l : Line) : Option (Line × Line × Line) :=
  match splitOnce sep l with
  | none => none
  | some (a, r) =>
    match splitOnce sep r with
    | none => none
    | some (b, c) => some (a, b, c)

/-- Python `s.split(';')[0]`: the prefix before the first `;` (or all of
`s`). -/
def beforeSemi (l : Line) : Line := l.takeWhile (fun c => !(c = ';'))

theorem beforeSemi_all {l : Line} (h : ∀ c ∈ l, c ≠ ';') : beforeSemi l = l := by
  unfold beforeSemi
  induction l with
  | nil => rfl
  | cons c cs ih =>
    rw [List.takeWhile_cons, if_pos (by simp [h c (by simp)])]
    rw [ih (fun x hx => h x (by simp [hx]))]

theorem beforeSemi_append_semi {x : Line} (y : Line) (hx : ∀ c ∈ x, c ≠ ';') :
    beforeSemi (x ++ ';' :: y) = x := by
  unfold beforeSemi
  induction x with
  | nil => simp
  | cons c cs ih =>
    rw [List.cons_append, List.takeWhile_cons, if_pos (by simp [hx c (by simp)])]
    rw [ih (fun a ha => hx a (by simp [ha]))]

theorem dropWhile_eq_self_of {p : Char → Bool} {l : Line}
    (h : ∀ c ∈ l, p c = false) : l.dropWhile p = l := by
  cases l with
  | nil => rfl
  | cons c cs =>
    rw [List.dropWhile_cons]
    simp [h c (by simp)]

theorem pyStrip_eq_self {l : Line} (h : ∀ c ∈ l, pyIsSpace c = false) :
    pyStrip l = l := by
  unfold pyStrip
  rw [dropWhile_eq_self_of h, dropWhile_eq_self_of (fun c hc => h c (by simpa using hc)),
    List.reverse_reverse]

theorem pyStrip_append_cr {l : Line} (h : ∀ c ∈ l, pyIsSpace c = false) (hne : l ≠ []) :
    pyStrip (l ++ ['\x0d']) = l := by
  unfold pyStrip
  have hfront : (l ++ ['\x0d']).dropWhile pyIsSpace = l ++ ['\x0d'] := by
    cases l with
    | nil => exact absurd rfl hne
    | cons c cs =>
      rw [List.cons_append, List.dropWhile_cons]
      simp [h c (by simp)]
  rw [hfront, List.reverse_append]
  simp only [List.reverse_cons, List.reverse_nil, List.nil_append, List.singleton_append]
  rw [List.dropWhile_cons]
  simp only [show pyIsSpace '\x0d' = true from rfl, if_true]
  rw [dropWhile_eq_self_of (fun c hc => h c (by simpa using hc)), List.reverse_reverse]

/-- The while-loop of replay.extract_response_from_chunked_data.  Each
iteration consumes at least the two newline splits of `rest`, so
`fuel = rest.length + 1` always suffices; `none` models the exception paths
(`int(..., 16)` ValueError, or too few newlines for the 3-way unpacking). -/
def chunkLoopF : Nat → Line → Line → Line → Option Line
  | 0, _, _, _ => none
  | fuel + 1, chunk_descriptor, rest, retStr =>
    if chunk_descriptor = ['0'] then some retStr
    else
      match toNatHex chunk_descriptor with
      | none => none
      | some chunk_dec_from_hex =>
        match splitTwice '\x0a' (rest.drop chunk_dec_from_hex) with
        | none => none
        | some (_, cd2, rest2) =>
          if (pyStrip (pyStrip (beforeSemi cd2))).length = 0 then
            some (retStr ++ rest.take chunk_dec_from_hex)
          else
            chunkLoopF fuel (pyStrip (beforeSemi cd2)) rest2
              (retStr ++ rest.take chunk_dec_from_hex)

/-- replay.extract_response_from_chunked_data.  `bytes.decode()` is the
identity in the character-list model; a `none` result models any raised
exception (the caller catches them all and keeps the undecoded payload). -/
def extract_response_from_chunked_data (data : Line) : Option Line :=
  match splitOnce '\x0a' data with
  | none => none
  | some (chunk_descriptor0, rest) =>
    chunkLoopF (rest.length + 1) (pyStrip (beforeSemi chunk_descriptor0)) rest []

/-- Modelled from the spec: a hexadecimal digit (lower case, as in standard
chunk-size lines). -/
def toHexDigit (d : Nat) : Char :=
  if d < 10 then Char.ofNat (48 + d) else Char.ofNat (87 + d)

/-- Modelled from the spec: hexadecimal rendering of a chunk size (fuel
`n + 1` always suffices since `n / 16 < n`). -/
def toHexF : Nat → Nat → Line
  | 0, _ => []
  | fuel + 1, n =>
    if n < 16 then [toHexDigit n]
    else toHexF fuel (n / 16) ++ [toHexDigit (n % 16)]

def spec_hex (n : Nat) : Line := toHexF (n + 1) n

theorem hexDigitVal_toHexDigit {d : Nat} (h : d < 16) :
    hexDigitVal (toHexDigit d) = some d := by
  interval_cases d <;> decide

theorem toHexDigit_props {d : Nat} (h : d < 16) :
    pyIsSpace (toHexDigit d) = false ∧ toHexDigit d ≠ ';' ∧ toHexDigit d ≠ '\x0a' := by
  interval_cases d <;> exact ⟨by decide, by decide, by decide⟩

theorem toHexF_ne_nil {fuel n : Nat} (h : n < fuel) : toHexF fuel n ≠ [] := by
  cases fuel with
  | zero => omega
  | succ f =>
    simp only [toHexF]
    by_cases h16 : n < 16
    · simp [h16]
    · simp [h16]

theorem toHexF_chars {fuel n : Nat} :
    ∀ c ∈ toHexF fuel n, pyIsSpace c = false ∧ c ≠ ';' ∧ c ≠ '\x0a' := by
  induction fuel generalizing n with
  | zero => intro c hc; simp [toHexF] at hc
  | succ f ih =>
    intro c hc
    simp only [toHexF] at hc
    by_cases h16 : n < 16
    · rw [if_pos h16] at hc
      simp only [List.mem_singleton] at hc
      subst hc
      exact toHexDigit_props h16
    · rw [if_neg h16] at hc
      rcases List.mem_append.mp hc with hc | hc
      · exact ih c hc
      · simp only [List.mem_singleton] at hc
        subst hc
        exact toHexDigit_props (Nat.mod_lt _ (by omega))

theorem toNatHexGo_append (l1 l2 : Line) (acc : Nat) :
    toNatHexGo (l1 ++ l2) acc =
      match toNatHexGo l1 acc with
      | none => none
      | some m => toNatHexGo l2 m := by
  induction l1 generalizing acc with
  | nil => rfl
  | cons c cs ih =>
    simp only [List.cons_append, toNatHexGo]
    cases hexDigitVal c with
    | none => rfl
    | some d => exact ih (acc * 16 + d)

theorem toNatHexGo_toHexF {fuel n : Nat} (h : n < fuel) (acc : Nat) :
    toNatHexGo (toHexF fuel n) acc = some (acc * 16 ^ (toHexF fuel n).length + n) := by
  induction fuel generalizing n acc with
  | zero => omega
  | succ f ih =>
    simp only [toHexF]
    by_cases h16 : n < 16
    · rw [if_pos h16]
      simp only [toNatHexGo, hexDigitVal_toHexDigit h16, List.length_singleton]
      norm_num
    · rw [if_neg h16]
      have hdiv : n / 16 < f := by
        have h1 : n / 16 < n := Nat.div_lt_self (by omega) (by omega)
        omega
      rw [toNatHexGo_append]
      rw [ih hdiv acc]
      simp only [toNatHexGo, hexDigitVal_toHexDigit (Nat.mod_lt _ (by omega : (0:Nat) < 16)),
        List.length_append, List.length_singleton]
      congr 1
      rw [pow_succ]
      have := Nat.div_add_mod n 16
      ring_nf
      omega

theorem toNatHex_spec_hex (n : Nat) : toNatHex (spec_hex n) = some n := by
  unfold spec_hex
  have hne := toHexF_ne_nil (Nat.lt_succ_self n)
  cases hh : toHexF (n + 1) n with
  | nil => exact absurd hh hne
  | cons c cs =>
    have := toNatHexGo_toHexF (Nat.lt_succ_self n) 0
    rw [hh] at this
    simpa [toNatHex] using this

theorem spec_hex_chars :
    ∀ c ∈ spec_hex n, pyIsSpace c = false ∧ c ≠ ';' ∧ c ≠ '\x0a' :=
  fun c hc => toHexF_chars c hc

theorem spec_hex_ne_zero {n : Nat} (h : 0 < n) : spec_hex n ≠ ['0'] := by
  intro he
  have h1 := toNatHex_spec_hex n
  rw [he] at h1
  have : (some 0 : Option Nat) = some n := by
    rw [← h1]
    decide
  simp at this
  omega

theorem pyStrip_spec_hex (n : Nat) : pyStrip (spec_hex n) = spec_hex n :=
  pyStrip_eq_self (fun c hc => (spec_hex_chars c hc).1)

theorem spec_hex_ne_nil (n : Nat) : spec_hex n ≠ [] :=
  toHexF_ne_nil (Nat.lt_succ_self n)

/-- Modelled from the spec: an optional `;`-delimited chunk extension. -/
def spec_chunk_ext (ext : Line) : Line := if ext = [] then [] else ';' :: ext

/-- Modelled from the spec: standard HTTP/1.1 chunked transfer encoding of a
sequence of (chunk, extension) pairs — each chunk is
`hex(len(chunk)) [';' ext] CRLF chunk CRLF` and the stream ends with the
zero-size chunk `0 CRLF CRLF`.  C9 compares the source decoder against this
specification-side encoder. -/
def spec_encode_chunked : List (Line × Line) → Line
  | [] => ['0', '\x0d', '\x0a', '\x0d', '\x0a']
  | (chunk, ext) :: rest =>
    spec_hex chunk.length ++ spec_chunk_ext ext ++ ['\x0d', '\x0a'] ++ chunk ++
      ['\x0d', '\x0a'] ++ spec_encode_chunked rest

/-- The concatenated chunk bodies: the original payload. -/
def joinChunks : List (Line × Line) → Line
  | [] => []
  | (chunk, _) :: rest => chunk ++ joinChunks rest

/-- The chunk-size line (with `\r` and any extension still attached) that
starts the encoded stream. -/
def rawDesc : List (Line × Line) → Line
  | [] => ['0', '\x0d']
  | (chunk, ext) :: _ => spec_hex chunk.length ++ spec_chunk_ext ext ++ ['\x0d']

/-- The stripped descriptor the decoder computes from `rawDesc`. -/
def specDesc : List (Line × Line) → Line
  | [] => ['0']
  | (chunk, _) :: _ => spec_hex chunk.length

/-- What remains of the stream after the first chunk-size line. -/
def specRest : List (Line × Line) → Line
  | [] => ['\x0d', '\x0a']
  | (chunk, _) :: rest => chunk ++ '\x0d' :: '\x0a' :: spec_encode_chunked rest

theorem splitOnce_enc (pairs : List (Line × Line))
    (hwf : ∀ p ∈ pairs, '\x0a' ∉ p.2) :
    splitOnce '\x0a' (spec_encode_chunked pairs) =
      some (rawDesc pairs, specRest pairs) := by
  cases pairs with
  | nil => decide
  | cons p rest =>
    obtain ⟨c, e⟩ := p
    have hx : '\x0a' ∉ spec_hex c.length ++ spec_chunk_ext e ++ ['\x0d'] := by
      intro hmem
      rcases List.mem_append.mp hmem with hmem | hmem
      · rcases List.mem_append.mp hmem with hmem | hmem
        · exact (spec_hex_chars _ hmem).2.2 rfl
        · unfold spec_chunk_ext at hmem
          by_cases he : e = []
          · simp [he] at hmem
          · rw [if_neg he] at hmem
            rcases List.mem_cons.mp hmem with hmem | hmem
            · exact absurd hmem.symm (by decide)
            · exact hwf (c, e) (by simp) hmem
      · simp at hmem
    have henc : spec_encode_chunked ((c, e) :: rest) =
        (spec_hex c.length ++ spec_chunk_ext e ++ ['\x0d']) ++
          '\x0a' :: specRest ((c, e) :: rest) := by
      simp [spec_encode_chunked, specRest]
    rw [henc, splitOnce_append _ hx]
    rfl

theorem stripDesc (pairs : List (Line × Line))
    (hwf : ∀ p ∈ pairs, p.1 ≠ []) :
    pyStrip (beforeSemi (rawDesc pairs)) = specDesc pairs := by
  cases pairs with
  | nil => decide
  | cons p rest =>
    obtain ⟨c, e⟩ := p
    have hclen : 0 < c.length := List.length_pos.mpr (hwf (c, e) (by simp))
    simp only [rawDesc, specDesc]
    by_cases he : e = []
    · subst he
      rw [show spec_chunk_ext [] = [] from rfl, List.append_nil]
      rw [beforeSemi_all (fun x hx => by
        rcases List.mem_append.mp hx with hx | hx
        · exact (spec_hex_chars _ hx).2.1
        · simp only [List.mem_singleton] at hx
          subst hx
          decide)]
      exact pyStrip_append_cr (fun x hx => (spec_hex_chars _ hx).1) (spec_hex_ne_nil _)
    · rw [spec_chunk_ext, if_neg he]
      have hre : spec_hex c.length ++ ';' :: e ++ ['\x0d'] =
          spec_hex c.length ++ ';' :: (e ++ ['\x0d']) := by simp
      rw [hre, beforeSemi_append_semi _ (fun x hx => (spec_hex_chars _ hx).2.1)]
      exact pyStrip_spec_hex _

theorem specDesc_not_blank (pairs : List (Line × Line)) :
    (pyStrip (specDesc pairs)).length ≠ 0 := by
  cases pairs with
  | nil => decide
  | cons p rest =>
    obtain ⟨c, _⟩ := p
    simp only [specDesc]
    rw [pyStrip_spec_hex]
    exact fun h => spec_hex_ne_nil c.length (List.length_eq_zero.mp h)

theorem enc_length_ge (pairs : List (Line × Line)) :
    pairs.length ≤ (spec_encode_chunked pairs).length := by
  induction pairs with
  | nil => simp [spec_encode_chunked]
  | cons p rest ih =>
    obtain ⟨c, e⟩ := p
    simp only [spec_encode_chunked, List.length_append, List.length_cons]
    omega

theorem specRest_length_ge (pairs : List (Line × Line)) :
    pairs.length ≤ (specRest pairs).length := by
  cases pairs with
  | nil => simp [specRest]
  | cons p rest =>
    obtain ⟨c, e⟩ := p
    have := enc_length_ge rest
    simp only [specRest, List.length_append, List.length_cons]
    omega

theorem chunkLoopF_round :
    ∀ (pairs : List (Line × Line)) (fuel : Nat) (retStr : Line),
      (∀ p ∈ pairs, p.1 ≠ [] ∧ '\x0a' ∉ p.2) →
      pairs.length < fuel →
      chunkLoopF fuel (specDesc pairs) (specRest pairs) retStr =
        some (retStr ++ joinChunks pairs) := by
  intro pairs
  induction pairs with
  | nil =>
    intro fuel retStr _ hf
    cases fuel with
    | zero => omega
    | succ f =>
      simp only [chunkLoopF, specDesc, joinChunks]
      simp
  | cons p rest ih =>
    obtain ⟨c, e⟩ := p
    intro fuel retStr hwf hf
    cases fuel with
    | zero => simp at hf
    | succ f =>
      have hc_ne : c ≠ [] := (hwf (c, e) (by simp)).1
      have hclen : 0 < c.length := List.length_pos.mpr hc_ne
      simp only [chunkLoopF, specDesc, specRest]
      rw [if_neg (fun hh => (spec_hex_ne_zero hclen) hh)]
      rw [toNatHex_spec_hex]
      have hdrop : (c ++ '\x0d' :: '\x0a' :: spec_encode_chunked rest).drop c.length =
          '\x0d' :: '\x0a' :: spec_encode_chunked rest := by
        rw [show c ++ '\x0d' :: '\x0a' :: spec_encode_chunked rest =
          c ++ ('\x0d' :: '\x0a' :: spec_encode_chunked rest) from rfl, List.drop_left]
      have htake : (c ++ '\x0d' :: '\x0a' :: spec_encode_chunked rest).take c.length = c :=
        List.take_left c _
      have hsplit1 : splitOnce '\x0a' ('\x0d' :: '\x0a' :: spec_encode_chunked rest) =
          some (['\x0d'], spec_encode_chunked rest) := by
        rw [show ('\x0d' :: '\x0a' :: spec_encode_chunked rest) =
          ['\x0d'] ++ '\x0a' :: spec_encode_chunked rest from rfl,
          splitOnce_append _ (by decide)]
      have hsplit2 := splitOnce_enc rest (fun q hq => (hwf q (by simp [hq])).2)
      have hsplitT : splitTwice '\x0a' ('\x0d' :: '\x0a' :: spec_encode_chunked rest) =
          some (['\x0d'], rawDesc rest, specRest rest) := by
        simp only [splitTwice, hsplit1, hsplit2]
      simp only [toNatHex_spec_hex, hdrop, hsplitT, htake]
      rw [stripDesc rest (fun q hq => (hwf q (by simp [hq])).1)]
      rw [if_neg (specDesc_not_blank rest)]
      rw [ih f (retStr ++ c) (fun q hq => hwf q (by simp [hq]))
        (by simp only [List.length_cons] at hf; omega)]
      simp [joinChunks]

/-- Claim C9: chunked round trip — encoding any sequence of non-empty
chunks (with arbitrary newline-free `;`-extensions) as standard
hex-size-prefixed chunks terminated by a zero-size chunk and then applying
the source decoder reproduces the original concatenated body exactly. -/
theorem claim9_chunked_roundtrip (pairs : List (Line × Line))
    (hwf : ∀ p ∈ pairs, p.1 ≠ [] ∧ '\x0a' ∉ p.2) :
    extract_response_from_chunked_data (spec_encode_chunked pairs) =
      some (joinChunks pairs) := by
  simp only [extract_response_from_chunked_data,
    splitOnce_enc pairs (fun p hp => (hwf p hp).2)]
  rw [stripDesc pairs (fun p hp => (hwf p hp).1)]
  rw [chunkLoopF_round pairs ((specRest pairs).length + 1) [] hwf
    (Nat.lt_succ_of_le (specRest_length_ge pairs))]
  simp

def c9pairs : List (Line × Line) :=
  [(str ("hello"), []), (str ("ab"), str ("ext"))]

/-- Witness for C9: the two-chunk body `helloab`, the second chunk carrying
a `;ext` extension, decodes back to `helloab` exactly. -/
theorem claim9_witness :
    (∀ p ∈ c9pairs, p.1 ≠ [] ∧ '\x0a' ∉ p.2) ∧
    extract_response_from_chunked_data (spec_encode_chunked c9pairs) =
      some (str ("helloab")) :=
  ⟨by decide, (claim9_chunked_roundtrip c9pairs (by decide)).trans (by decide)⟩

/-- The JSON metadata block of a CDXJ record as consumed by show_uri.
`json.loads` itself is the Python standard library, abstracted as
`Env.json_loads`; the claims depend only on which fields are present. -/
structure Metadata where
  locator : Line
  mime_type : Line
  status_code : Option Line
  encryption_method : Option Line
  encryption_key : Option Line
  encryption_nonce : Option Line
deriving DecidableEq

/-- Result of one `ipfs_client().cat(digest)` call, by the exception
classes distinguished in show_uri's `except` clauses.  `hashNotFound` is
`HashNotFoundError`, raised only by the alarm handler that the source has
commented out (Bug #310) — it is kept reachable here because the `except`
clause for it is in the source. -/
inductive CatRes where
  | ok (b : Line)
  | timeoutErr
  | typeErr
  | httpErr
  | hashNotFound
  | otherErr
deriving DecidableEq

/-- A Python value that is either `bytes` or `str`: the `header` variable
of show_uri holds fetched bytes normally, but the str `''` on the
fabricated-header path — and `.decode()` exists only on bytes in
Python 3. -/
inductive PyStrBytes where
  | bytes (b : Line)
  | pystr (s : Line)
deriving DecidableEq

/-- Uncaught Python exceptions escaping show_uri / show_memento (Flask's
registered errorhandler turns each into a generic 500). -/
inductive PyExc where
  | jsonMetaError
  | rawInputUndefined
  | padTypeError
  | strDecodeAttrError
  | headerSplitValueError
  | statusIntSubscript
  | statusIndexError
  | isUriNoneTypeError
  | intValueError
  | tupleHeadersAttrError
  | lineUnpackValueError
  | splitIndexError
deriving DecidableEq

/-- Results of show_uri: flask `Response` pages, bare `(body, status)`
tuples, the miss interface (generate_no_mementos_interface — an HTML
listing or redirect, elided as no claim touches its internals), the
reconstructed response, or an uncaught exception. -/
inductive UriResult where
  | page (status : Nat) (body : Line)
  | tuplePage (status : Nat) (body : Line)
  | missInterface
  | resp (status : Line ⊕ Nat) (body : Line) (headers : List (Line × Line))
  | failure (e : PyExc)
deriving DecidableEq

def toLowerChar (c : Char) : Char :=
  if 'A' ≤ c && c ≤ 'Z' then Char.ofNat (c.toNat + 32) else c

def toLowerL (l : Line) : Line := l.map toLowerChar

theorem toLowerL_append (a b : Line) : toLowerL (a ++ b) = toLowerL a ++ toLowerL b :=
  List.map_append toLowerChar a b

/-- `resp.headers[k] = v` (werkzeug Headers are case-insensitive): replace
the first case-insensitive match or append. -/
def hset : List (Line × Line) → Line → Line → List (Line × Line)
  | [], k, v => [(k, v)]
  | (k', v') :: hs, k, v =>
    if toLowerL k' = toLowerL k then (k, v) :: hs
    else (k', v') :: hset hs k v

/-- `resp.headers.get(k)` (case-insensitive). -/
def hget : List (Line × Line) → Line → Option Line
  | [], _ => none
  | (k', v') :: hs, k => if toLowerL k' = toLowerL k then some v' else hget hs k

theorem hget_hset_self (hs : List (Line × Line)) (k v : Line) :
    hget (hset hs k v) k = some v := by
  induction hs with
  | nil => simp [hset, hget]
  | cons p hs ih =>
    obtain ⟨k', v'⟩ := p
    by_cases h : toLowerL k' = toLowerL k
    · simp [hset, hget, h]
    · simp only [hset, hget, if_neg h]
      exact ih

theorem hget_hset_ne (hs : List (Line × Line)) {k k' : Line} (v : Line)
    (h : toLowerL k' ≠ toLowerL k) : hget (hset hs k v) k' = hget hs k' := by
  induction hs with
  | nil =>
    simp only [hset, hget]
    rw [if_neg (fun hh => h (Eq.symm hh))]
  | cons p hs ih =>
    obtain ⟨k0, v0⟩ := p
    by_cases h0 : toLowerL k0 = toLowerL k
    · simp only [hset, if_pos h0, hget]
      rw [if_neg (fun hh => h (Eq.symm hh)),
        if_neg (by rw [h0]; exact fun hh => h (Eq.symm hh))]
    · simp only [hset, if_neg h0, hget]
      by_cases h1 : toLowerL k0 = toLowerL k'
      · rw [if_pos h1, if_pos h1]
      · rw [if_neg h1, if_neg h1]
        exact ih

theorem hset_mem {hs : List (Line × Line)} {k v : Line} {q : Line × Line}
    (h : q ∈ hset hs k v) : q = (k, v) ∨ q ∈ hs := by
  induction hs with
  | nil => simpa [hset] using h
  | cons p hs ih =>
    obtain ⟨k0, v0⟩ := p
    by_cases h0 : toLowerL k0 = toLowerL k
    · simp only [hset, if_pos h0] at h
      rcases List.mem_cons.mp h with h | h
      · exact Or.inl h
      · exact Or.inr (List.mem_cons_of_mem _ h)
    · simp only [hset, if_neg h0] at h
      rcases List.mem_cons.mp h with h | h
      · exact Or.inr (by simp [h])
      · rcases ih h with h | h
        · exact Or.inl h
        · exact Or.inr (List.mem_cons_of_mem _ h)

theorem hget_none_of {hs : List (Line × Line)} {k : Line}
    (h : ∀ p ∈ hs, toLowerL p.1 ≠ toLowerL k) : hget hs k = none := by
  induction hs with
  | nil => rfl
  | cons p hs ih =>
    obtain ⟨k0, v0⟩ := p
    simp only [hget, if_neg (h (k0, v0) (by simp))]
    exact ih (fun q hq => h q (by simp [hq]))

def isWordChar (c : Char) : Bool :=
  ('a' ≤ c && c ≤ 'z') || ('A' ≤ c && c ≤ 'Z') || ('0' ≤ c && c ≤ '9') || c = '_'

/-- One position of `re.search(r'\bchunked\b', v, re.I)`: `chunked` matches
here, case-insensitively, with a word boundary after it. -/
def chunkedAt (s : Line) : Bool :=
  leadsWith (str ("chunked")) (toLowerL s) &&
    (match (s.drop 7).head? with
     | none => true
     | some c => !isWordChar c)

def hasChunkedWordAux : Bool → Line → Bool
  | _, [] => false
  | prevIsWord, c :: cs =>
    (!prevIsWord && chunkedAt (c :: cs)) || hasChunkedWordAux (isWordChar c) cs

/-- `re.search(r'\bchunked\b', v, re.I) is not None`. -/
def hasChunkedWord (v : Line) : Bool := hasChunkedWordAux false v

/-- replay.isUri: `re.match('^https?://', str, re.I)`. -/
def isUri (s : Line) : Bool :=
  leadsWith (str ("http://")) (toLowerL s) || leadsWith (str ("https://")) (toLowerL s)

/-- The header-key rewrite of show_uri: content-type, content-encoding and
location pass through; everything else gets the provenance prefix. -/
def prefixKey (k : Line) : Line :=
  if toLowerL k = str ("content-type") ∨ toLowerL k = str ("content-encoding") ∨
      toLowerL k = str ("location") then k
  else str ("X-Archive-Orig-") ++ k

/-- The per-header-line loop of show_uri: split each line at the first `:`
(ValueError without one), on a chunked transfer-encoding header try to
un-chunk the original payload (`continue` on failure skips both the
set_data and the header set), rename the key, and set the header. -/
def process_header_lines (payload : Line) :
    List Line → Line → List (Line × Line) → Except PyExc (Line × List (Line × Line))
  | [], data, hdrs => Except.ok (data, hdrs)
  | hLine :: restLines, data, hdrs =>
    match splitOnce ':' hLine with
    | none => Except.error PyExc.headerSplitValueError
    | some (k, v) =>
      if toLowerL k = str ("transfer-encoding") ∧ hasChunkedWord v = true then
        match extract_response_from_chunked_data payload with
        | none => process_header_lines payload restLines data hdrs
        | some unchunked =>
          process_header_lines payload restLines unchunked
            (hset hdrs (prefixKey k) (pyStrip v))
      else
        process_header_lines payload restLines data (hset hdrs (prefixKey k) (pyStrip v))

/-- The header text preparation of show_uri: decode, drop `\r`, unfold
continuation lines, split on `\n` and pop the status line. -/
def headerLinesOf (hb : Line) : List Line :=
  (splitOnChar '\x0a'
    (pyReplace (pyReplace (pyReplace hb ['\x0d'] []) ['\x0a', '\x09'] ['\x09'])
      ['\x0a', ' '] [' '])).tail

/-- The script block injected into HTML payloads. -/
def ipwbJsInject : Line :=
  str ("<script src=\"/ipwbassets/webui.js\"></script>") ++ ['\x0a'] ++
    str ("                      <script>injectIPWBJS()</script>")

/-- The ambient collaborators of show_uri / show_memento, modelled as
explicit inputs: daemon liveness, the index content (split on newlines),
the external `surt` library, the util-module helpers (`unsurt`,
`digits14_to_rfc1123`, `pad_digits14` — that module is not part of src/),
the standard-library JSON parser and urllib URL splitting, the per-digest
`ipfs_client().cat` outcome, the replay host:port configuration, the
optional proxy, and the request-URL prefix used for Location rewriting. -/
structure Env where
  daemon_alive : Bool
  index_lines : List Line
  surt_fn : Line → Line
  unsurt_fn : Line → Line
  rfc1123_fn : Line → Line
  pad_digits14 : Line → Option Line
  json_loads : Line → Option Metadata
  cat : Line → CatRes
  request_url_upto_ts : Line
  host_port : Line
  proxy : Option Line
  proxied : Line → Line
  base_of : Line → Line

/-- Python `line.split(' ', 2)[2]`: the JSON text after the first two
fields. -/
def field2rest (l : Line) : Line := joinWith [' '] ((splitOnChar ' ' l).drop 2)

/-- `digests[-1]` of `json_object['locator'].split('/')`. -/
def locatorDigestPayload (meta : Metadata) : Line :=
  (splitOnChar '/' meta.locator).getLastD []

/-- `digests[-2]` of `json_object['locator'].split('/')`. -/
def locatorDigestHeader (meta : Metadata) : Line :=
  (splitOnChar '/' meta.locator).dropLast.getLastD []

/-- show_uri after the fetch and the JSON parse (replay.py lines 687-765). -/
def show_uri_body (env : Env) (cdxj_line : Line) (meta : Metadata)
    (payload : Line) (header : Option PyStrBytes) : UriResult :=
  if meta.encryption_method.isSome then
    match meta.encryption_key with
    | none => UriResult.failure PyExc.rawInputUndefined
    | some _ => UriResult.failure PyExc.padTypeError
  else
    match header with
    | none => UriResult.failure PyExc.strDecodeAttrError
    | some (PyStrBytes.pystr _) => UriResult.failure PyExc.strDecodeAttrError
    | some (PyStrBytes.bytes hb) =>
      match process_header_lines payload (headerLinesOf hb) payload [] with
      | Except.error e => UriResult.failure e
      | Except.ok (data1, hdrs1) =>
        let data2 :=
          if occursIn (str ("text/html")) meta.mime_type then
            pyReplace data1 (str ("</html>")) (ipwbJsInject ++ str ("</html>"))
          else data1
        let hdrs2 := hset hdrs1 (str ("Memento-Datetime"))
          (env.rfc1123_fn (field1 cdxj_line))
        let hdrs3 :=
          if header = none then
            hset hdrs2 (str ("X-Headers-Generated-By")) (str ("InterPlanetary Wayback"))
          else hdrs2
        match meta.status_code with
        | none => UriResult.failure PyExc.statusIntSubscript
        | some s =>
          match s with
          | [] => UriResult.failure PyExc.statusIndexError
          | c :: cs =>
            if c = '3' then
              match hget hdrs3 (str ("Location")) with
              | none => UriResult.failure PyExc.isUriNoneTypeError
              | some loc =>
                if isUri loc then
                  UriResult.resp (Sum.inl (c :: cs)) data2
                    (hset hdrs3 (str ("Location")) (env.request_url_upto_ts ++ loc))
                else UriResult.resp (Sum.inl (c :: cs)) data2 hdrs3
            else UriResult.resp (Sum.inl (c :: cs)) data2 hdrs3

/-- show_uri's fetch phase (replay.py lines 639-685): `cat` the payload and
header digests and dispatch on the exception classes of the `except`
clauses. -/
def show_uri_fetched (env : Env) (cdxj_line : Line) (meta : Metadata) : UriResult :=
  match env.cat (locatorDigestPayload meta) with
  | CatRes.timeoutErr => UriResult.page 200 (str ("not found in IPFS"))
  | CatRes.typeErr => UriResult.tuplePage 500 (str ("A Type Error Occurred"))
  | CatRes.httpErr => UriResult.tuplePage 503 (str ("Fetching from IPFS failed"))
  | CatRes.hashNotFound => UriResult.tuplePage 404 (str ("Hashed not found"))
  | CatRes.otherErr => UriResult.tuplePage 500 (str ("An unknown exception occurred"))
  | CatRes.ok payload =>
    match env.cat (locatorDigestHeader meta) with
    | CatRes.timeoutErr => UriResult.page 200 (str ("not found in IPFS"))
    | CatRes.typeErr => UriResult.tuplePage 500 (str ("A Type Error Occurred"))
    | CatRes.httpErr => UriResult.tuplePage 503 (str ("Fetching from IPFS failed"))
    | CatRes.otherErr => UriResult.tuplePage 500 (str ("An unknown exception occurred"))
    | CatRes.hashNotFound =>
      show_uri_body env cdxj_line meta payload (some (PyStrBytes.pystr []))
    | CatRes.ok h => show_uri_body env cdxj_line meta payload (some (PyStrBytes.bytes h))

/-- The search string show_uri builds: `'{surted_uri} {datetime}'`, or the
SURT alone without a datetime. -/
def showUriSearchString (env : Env) (path : Line) (datetime : Option Line) : Line :=
  match datetime with
  | some dt => env.surt_fn path ++ ' ' :: dt
  | none => env.surt_fn path

/-- replay.show_uri.  Page texts are abbreviated to short markers (the
full interpolated HTML strings carry no claim-relevant content). -/
def show_uri (env : Env) (path : Line) (datetime : Option Line) : UriResult :=
  if env.daemon_alive then
    match binary_search env.index_lines (showUriSearchString env path datetime)
        false false with
    | none => UriResult.missInterface
    | some (Sum.inl _) => UriResult.missInterface
    | some (Sum.inr cdxj_line) =>
      match env.json_loads (field2rest cdxj_line) with
      | none => UriResult.failure PyExc.jsonMetaError
      | some meta => show_uri_fetched env cdxj_line meta
  else UriResult.page 503 (str ("IPFS daemon not running"))

theorem prefixKey_marker_ne (k0 : Line) :
    toLowerL (prefixKey k0) ≠ toLowerL (str ("X-Headers-Generated-By")) := by
  unfold prefixKey
  by_cases h : toLowerL k0 = str ("content-type") ∨
      toLowerL k0 = str ("content-encoding") ∨ toLowerL k0 = str ("location")
  · rw [if_pos h]
    rcases h with h | h | h <;> rw [h] <;> decide
  · rw [if_neg h]
    intro heq
    rw [toLowerL_append] at heq
    have h3 := congrArg (fun l => List.take 3 l) heq
    simp only at h3
    rw [List.take_append_of_le_length (by decide)] at h3
    exact absurd h3 (by decide)

/-- Every header key produced by the per-line loop is `prefixKey` of some
original key. -/
theorem process_header_lines_keys {payload : Line} :
    ∀ (lines : List Line) (d0 : Line) (hs0 : List (Line × Line)) {d : Line}
      {hs : List (Line × Line)},
      (∀ q ∈ hs0, ∃ k0 v0, q = (prefixKey k0, v0)) →
      process_header_lines payload lines d0 hs0 = Except.ok (d, hs) →
      ∀ q ∈ hs, ∃ k0 v0, q = (prefixKey k0, v0) := by
  intro lines
  induction lines with
  | nil =>
    intro d0 hs0 d hs hinv h q hq
    simp only [process_header_lines, Except.ok.injEq, Prod.mk.injEq] at h
    exact hinv q (h.2 ▸ hq)
  | cons hLine rest ih =>
    intro d0 hs0 d hs hinv h q hq
    cases hsp : splitOnce ':' hLine with
    | none =>
      simp only [process_header_lines, hsp] at h
      exact absurd h (by simp)
    | some kv =>
      obtain ⟨k, v⟩ := kv
      simp only [process_header_lines, hsp] at h
      have hinv' : ∀ q ∈ hset hs0 (prefixKey k) (pyStrip v), ∃ k0 v0, q = (prefixKey k0, v0) := by
        intro q hq
        rcases hset_mem hq with hq | hq
        · exact ⟨k, pyStrip v, hq⟩
        · exact hinv q hq
      by_cases hc : toLowerL k = str ("transfer-encoding") ∧ hasChunkedWord v = true
      · rw [if_pos hc] at h
        cases hex : extract_response_from_chunked_data payload with
        | none =>
          rw [hex] at h
          exact ih d0 hs0 hinv h q hq
        | some unchunked =>
          rw [hex] at h
          exact ih unchunked _ hinv' h q hq
      · rw [if_neg hc] at h
        exact ih d0 _ hinv' h q hq

/-- When the payload is not valid chunked data, the per-line loop never
replaces the response data. -/
theorem process_header_lines_data {payload : Line}
    (hex : extract_response_from_chunked_data payload = none) :
    ∀ (lines : List Line) (d0 : Line) (hs0 : List (Line × Line)) {d : Line}
      {hs : List (Line × Line)},
      process_header_lines payload lines d0 hs0 = Except.ok (d, hs) → d = d0 := by
  intro lines
  induction lines with
  | nil =>
    intro d0 hs0 d hs h
    simp only [process_header_lines, Except.ok.injEq, Prod.mk.injEq] at h
    exact h.1.symm
  | cons hLine rest ih =>
    intro d0 hs0 d hs h
    cases hsp : splitOnce ':' hLine with
    | none =>
      simp only [process_header_lines, hsp] at h
      exact absurd h (by simp)
    | some kv =>
      obtain ⟨k, v⟩ := kv
      simp only [process_header_lines, hsp] at h
      by_cases hc : toLowerL k = str ("transfer-encoding") ∧ hasChunkedWord v = true
      · rw [if_pos hc, hex] at h
        exact ih d0 hs0 h
      · rw [if_neg hc] at h
        exact ih d0 _ h

/-- Any successful (`.resp`) outcome of show_uri_body carries the
Memento-Datetime header derived from the found line's timestamp field,
never carries the X-Headers-Generated-By marker, and can only arise from a
bytes header. -/
theorem show_uri_body_resp_headers (env : Env) (cdxj_line : Line) (meta : Metadata)
    (payload : Line) (hOpt : Option PyStrBytes)
    {st : Line ⊕ Nat} {body : Line} {hdrs : List (Line × Line)}
    (h : show_uri_body env cdxj_line meta payload hOpt = UriResult.resp st body hdrs) :
    hget hdrs (str ("Memento-Datetime")) = some (env.rfc1123_fn (field1 cdxj_line)) ∧
    hget hdrs (str ("X-Headers-Generated-By")) = none := by
  unfold show_uri_body at h
  by_cases hm : meta.encryption_method.isSome
  · rw [if_pos hm] at h
    cases hk : meta.encryption_key <;> simp [hk] at h
  · rw [if_neg hm] at h
    cases hOpt with
    | none => simp at h
    | some hsb =>
      cases hsb with
      | pystr s => simp at h
      | bytes hb =>
        cases hproc : process_header_lines payload (headerLinesOf hb) payload [] with
        | error e => simp [hproc] at h
        | ok dh =>
          obtain ⟨data1, hdrs1⟩ := dh
          have hkeys : ∀ q ∈ hdrs1, ∃ k0 v0, q = (prefixKey k0, v0) :=
            process_header_lines_keys (headerLinesOf hb) payload [] (by simp) hproc
          have hmarker1 : hget hdrs1 (str ("X-Headers-Generated-By")) = none := by
            apply hget_none_of
            intro p hp
            obtain ⟨k0, v0, hp0⟩ := hkeys p hp
            rw [hp0]
            exact prefixKey_marker_ne k0
          have hne_some : (some (PyStrBytes.bytes hb) : Option PyStrBytes) ≠ none := by simp
          simp only [hproc, if_neg hne_some] at h
          have hdisj : hdrs = hset hdrs1 (str ("Memento-Datetime"))
              (env.rfc1123_fn (field1 cdxj_line)) ∨
              ∃ w, hdrs = hset (hset hdrs1 (str ("Memento-Datetime"))
                (env.rfc1123_fn (field1 cdxj_line))) (str ("Location")) w := by
            split at h
            · exact absurd h (by simp)
            · split at h
              · exact absurd h (by simp)
              · split at h
                · split at h
                  · exact absurd h (by simp)
                  · split at h
                    · simp only [UriResult.resp.injEq] at h
                      exact Or.inr ⟨_, h.2.2.symm⟩
                    · simp only [UriResult.resp.injEq] at h
                      exact Or.inl h.2.2.symm
                · simp only [UriResult.resp.injEq] at h
                  exact Or.inl h.2.2.symm
          rcases hdisj with hd1 | ⟨w, hd1⟩
          · rw [hd1]
            refine ⟨hget_hset_self _ _ _, ?_⟩
            rw [hget_hset_ne _ _ (by decide)]
            exact hmarker1
          · rw [hd1]
            constructor
            · rw [hget_hset_ne _ _ (by decide)]
              exact hget_hset_self _ _ _
            · rw [hget_hset_ne _ _ (by decide), hget_hset_ne _ _ (by decide)]
              exact hmarker1

/-- Any successful (`.resp`) outcome of show_uri comes from a found CDXJ
line, carries Memento-Datetime rendered from that line's timestamp field,
and never carries the header-synthesis marker. -/
theorem show_uri_resp_headers (env : Env) (path : Line) (dtOpt : Option Line)
    {st : Line ⊕ Nat} {body : Line} {hdrs : List (Line × Line)}
    (h : show_uri env path dtOpt = UriResult.resp st body hdrs) :
    ∃ cdxj_line,
      binary_search env.index_lines (showUriSearchString env path dtOpt) false false =
        some (Sum.inr cdxj_line) ∧
      hget hdrs (str ("Memento-Datetime")) = some (env.rfc1123_fn (field1 cdxj_line)) ∧
      hget hdrs (str ("X-Headers-Generated-By")) = none := by
  unfold show_uri at h
  by_cases hd : env.daemon_alive
  · rw [if_pos hd] at h
    cases hbs : binary_search env.index_lines (showUriSearchString env path dtOpt)
        false false with
    | none =>
      simp only [hbs] at h
      exact absurd h (by simp)
    | some r =>
      cases r with
      | inl i =>
        simp only [hbs] at h
        exact absurd h (by simp)
      | inr cdxj_line =>
        simp only [hbs] at h
        cases hjson : env.json_loads (field2rest cdxj_line) with
        | none =>
          simp only [hjson] at h
          exact absurd h (by simp)
        | some meta =>
          simp only [hjson] at h
          refine ⟨cdxj_line, rfl, ?_⟩
          unfold show_uri_fetched at h
          cases hc1 : env.cat (locatorDigestPayload meta) with
          | timeoutErr =>
            simp only [hc1] at h
            exact absurd h (by simp)
          | typeErr =>
            simp only [hc1] at h
            exact absurd h (by simp)
          | httpErr =>
            simp only [hc1] at h
            exact absurd h (by simp)
          | hashNotFound =>
            simp only [hc1] at h
            exact absurd h (by simp)
          | otherErr =>
            simp only [hc1] at h
            exact absurd h (by simp)
          | ok payload =>
            simp only [hc1] at h
            cases hc2 : env.cat (locatorDigestHeader meta) with
            | timeoutErr =>
              simp only [hc2] at h
              exact absurd h (by simp)
            | typeErr =>
              simp only [hc2] at h
              exact absurd h (by simp)
            | httpErr =>
              simp only [hc2] at h
              exact absurd h (by simp)
            | otherErr =>
              simp only [hc2] at h
              exact absurd h (by simp)
            | hashNotFound =>
              simp only [hc2] at h
              exact show_uri_body_resp_headers env cdxj_line meta payload _ h
            | ok hb =>
              simp only [hc2] at h
              exact show_uri_body_resp_headers env cdxj_line meta payload _ h
  · rw [if_neg hd] at h
    exact absurd h (by simp)

/-- C6: when the record's metadata has no `status_code` and both blobs fetch
and the header lines process cleanly, show_uri does not complete with a
default success status: the int default `status = 200` flows into
`status[0]`, which raises TypeError and fails the request. -/
theorem claim6_missing_status_code (env : Env) (path : Line) (dtOpt : Option Line)
    (cdxj_line payload hb : Line) (meta : Metadata) (pr : Line × List (Line × Line))
    (hd : env.daemon_alive = true)
    (hbs : binary_search env.index_lines (showUriSearchString env path dtOpt) false false =
      some (Sum.inr cdxj_line))
    (hjson : env.json_loads (field2rest cdxj_line) = some meta)
    (henc : meta.encryption_method = none)
    (hstat : meta.status_code = none)
    (hpay : env.cat (locatorDigestPayload meta) = CatRes.ok payload)
    (hhdr : env.cat (locatorDigestHeader meta) = CatRes.ok hb)
    (hproc : process_header_lines payload (headerLinesOf hb) payload [] = Except.ok pr) :
    show_uri env path dtOpt = UriResult.failure PyExc.statusIntSubscript := by
  obtain ⟨d1, hs1⟩ := pr
  unfold show_uri
  rw [if_pos hd]
  simp only [hbs, hjson]
  unfold show_uri_fetched
  simp only [hpay, hhdr]
  unfold show_uri_body
  rw [henc]
  rw [if_neg (by simp)]
  simp only [hproc, hstat]

def mkEnv (catf : Line → CatRes) (jm : Metadata) : Env :=
  ⟨true, [str ("com,x)/ 20190101000000 j")], id, id, id, fun _ => none,
    fun _ => some jm, catf, [], [], none, id, id⟩

def c6meta : Metadata :=
  ⟨str ("u/hh/hp"), str ("text/plain"), none, none, none, none⟩

def c6env : Env := mkEnv (fun _ => CatRes.ok (str ("x"))) c6meta

theorem claim6_witness :
    show_uri c6env (str ("com,x)/")) (some (str ("20190101000000"))) =
      UriResult.failure PyExc.statusIntSubscript :=
  claim6_missing_status_code c6env (str ("com,x)/")) (some (str ("20190101000000")))
    (str ("com,x)/ 20190101000000 j")) (str ("x")) (str ("x")) c6meta
    (str ("x"), []) rfl (by decide) rfl rfl rfl (by decide) (by decide) rfl

/-- C7: when the payload digest resolves but the header digest does not
(the HashNotFoundError branch fabricates `header = ''`), reconstruction does
not proceed to a marked synthesized response: the fabricated header is a
Python 3 str, so the later `header.decode()` raises AttributeError and the
request fails; moreover no successful show_uri response ever carries the
`X-Headers-Generated-By` marker, because the `if header is None` test that
would attach it can never hold. -/
theorem claim7_header_hash_missing (env : Env) (path : Line) (dtOpt : Option Line)
    (cdxj_line payload : Line) (meta : Metadata)
    (hd : env.daemon_alive = true)
    (hbs : binary_search env.index_lines (showUriSearchString env path dtOpt) false false =
      some (Sum.inr cdxj_line))
    (hjson : env.json_loads (field2rest cdxj_line) = some meta)
    (henc : meta.encryption_method = none)
    (hpay : env.cat (locatorDigestPayload meta) = CatRes.ok payload)
    (hhdr : env.cat (locatorDigestHeader meta) = CatRes.hashNotFound) :
    show_uri env path dtOpt = UriResult.failure PyExc.strDecodeAttrError ∧
    ∀ (env2 : Env) (p2 : Line) (d2 : Option Line) (st : Line ⊕ Nat) (body : Line)
      (hdrs : List (Line × Line)),
      show_uri env2 p2 d2 = UriResult.resp st body hdrs →
      hget hdrs (str ("X-Headers-Generated-By")) = none := by
  constructor
  · unfold show_uri
    rw [if_pos hd]
    simp only [hbs, hjson]
    unfold show_uri_fetched
    simp only [hpay, hhdr]
    unfold show_uri_body
    rw [henc]
    rw [if_neg (by simp)]
  · intro env2 p2 d2 st body hdrs h
    obtain ⟨c, _, _, hm⟩ := show_uri_resp_headers env2 p2 d2 h
    exact hm

def c7meta : Metadata :=
  ⟨str ("u/hh/hp"), str ("text/plain"), some (str ("200")), none, none, none⟩

def c7env : Env :=
  mkEnv (fun d => if d = str ("hh") then CatRes.hashNotFound else CatRes.ok (str ("x")))
    c7meta

theorem claim7_witness :
    show_uri c7env (str ("com,x)/")) (some (str ("20190101000000"))) =
      UriResult.failure PyExc.strDecodeAttrError ∧
    ∀ (env2 : Env) (p2 : Line) (d2 : Option Line) (st : Line ⊕ Nat) (body : Line)
      (hdrs : List (Line × Line)),
      show_uri env2 p2 d2 = UriResult.resp st body hdrs →
      hget hdrs (str ("X-Headers-Generated-By")) = none :=
  claim7_header_hash_missing c7env (str ("com,x)/")) (some (str ("20190101000000")))
    (str ("com,x)/ 20190101000000 j")) (str ("x")) c7meta
    rfl (by decide) rfl rfl (by decide) (by decide)

/-- C8: a record with `encryption_method` in its metadata but no
`encryption_key` fails for that single request: the key prompt uses
`raw_input`, which does not exist in Python 3, so a NameError is raised
immediately — a hard per-request failure with no blocking wait on
interactive input. -/
theorem claim8_missing_decryption_key (env : Env) (path : Line) (dtOpt : Option Line)
    (cdxj_line payload hb m : Line) (meta : Metadata)
    (hd : env.daemon_alive = true)
    (hbs : binary_search env.index_lines (showUriSearchString env path dtOpt) false false =
      some (Sum.inr cdxj_line))
    (hjson : env.json_loads (field2rest cdxj_line) = some meta)
    (henc : meta.encryption_method = some m)
    (hkey : meta.encryption_key = none)
    (hpay : env.cat (locatorDigestPayload meta) = CatRes.ok payload)
    (hhdr : env.cat (locatorDigestHeader meta) = CatRes.ok hb) :
    show_uri env path dtOpt = UriResult.failure PyExc.rawInputUndefined := by
  unfold show_uri
  rw [if_pos hd]
  simp only [hbs, hjson]
  unfold show_uri_fetched
  simp only [hpay, hhdr]
  unfold show_uri_body
  rw [henc]
  rw [if_pos (by simp)]
  simp only [hkey]

def c8meta : Metadata :=
  ⟨str ("u/hh/hp"), str ("text/plain"), some (str ("200")), some (str ("xor")),
    none, none⟩

def c8env : Env := mkEnv (fun _ => CatRes.ok (str ("x"))) c8meta

theorem claim8_witness :
    show_uri c8env (str ("com,x)/")) (some (str ("20190101000000"))) =
      UriResult.failure PyExc.rawInputUndefined :=
  claim8_missing_decryption_key c8env (str ("com,x)/")) (some (str ("20190101000000")))
    (str ("com,x)/ 20190101000000 j")) (str ("x")) (str ("x")) (str ("xor")) c8meta
    rfl (by decide) rfl rfl rfl (by decide) (by decide)

/-- The per-line condition of show_uri's header loop that triggers chunked
decoding: the key (lower-cased) is `transfer-encoding` and the value matches
`\bchunked\b`. -/
def declaresChunked (hl : Line) : Bool :=
  match splitOnce ':' hl with
  | none => false
  | some (k, v) => (toLowerL k == str ("transfer-encoding")) && hasChunkedWord v

/-- C10: when the stored headers declare chunked transfer-encoding but the
payload is not a valid chunk stream (the decoder raises, modelled as
`none`), reconstruction does not fail: the decode is aborted by the
`except ... continue` and the response is produced with the original,
undecoded payload as its body. -/
theorem claim10_invalid_chunk_stream (env : Env) (path : Line) (dtOpt : Option Line)
    (cdxj_line payload hb cs : Line) (c : Char) (d1 : Line)
    (hs1 : List (Line × Line)) (meta : Metadata)
    (hd : env.daemon_alive = true)
    (hbs : binary_search env.index_lines (showUriSearchString env path dtOpt) false false =
      some (Sum.inr cdxj_line))
    (hjson : env.json_loads (field2rest cdxj_line) = some meta)
    (henc : meta.encryption_method = none)
    (hpay : env.cat (locatorDigestPayload meta) = CatRes.ok payload)
    (hhdr : env.cat (locatorDigestHeader meta) = CatRes.ok hb)
    (_hchunk : (headerLinesOf hb).any declaresChunked = true)
    (hex : extract_response_from_chunked_data payload = none)
    (hproc : process_header_lines payload (headerLinesOf hb) payload [] =
      Except.ok (d1, hs1))
    (hmime : occursIn (str ("text/html")) meta.mime_type = false)
    (hstat : meta.status_code = some (c :: cs))
    (hc : ¬ c = '3') :
    show_uri env path dtOpt =
      UriResult.resp (Sum.inl (c :: cs)) payload
        (hset hs1 (str ("Memento-Datetime")) (env.rfc1123_fn (field1 cdxj_line))) := by
  have hd1 : d1 = payload :=
    process_header_lines_data hex (headerLinesOf hb) payload [] hproc
  subst hd1
  unfold show_uri
  rw [if_pos hd]
  simp only [hbs, hjson]
  unfold show_uri_fetched
  simp only [hpay, hhdr]
  unfold show_uri_body
  rw [henc]
  rw [if_neg (by simp)]
  simp only [hproc, hstat]
  rw [if_neg hc]
  rw [if_neg (by rw [hmime]; simp)]
  rw [if_neg (by simp : ¬ (some (PyStrBytes.bytes hb) : Option PyStrBytes) = none)]

def c10payload : Line := str ("notchunked")

def c10hb : Line := str ("HTTP/1.1 200 OK") ++ '\x0a' ::
  str ("Transfer-Encoding: chunked")

def c10meta : Metadata :=
  ⟨str ("u/hh/hp"), str ("text/plain"), some (str ("200")), none, none, none⟩

def c10env : Env :=
  mkEnv (fun d => if d = str ("hh") then CatRes.ok c10hb else CatRes.ok c10payload)
    c10meta

theorem claim10_witness :
    show_uri c10env (str ("com,x)/")) (some (str ("20190101000000"))) =
      UriResult.resp (Sum.inl (str ("200"))) c10payload
        (hset [] (str ("Memento-Datetime")) (str ("20190101000000"))) :=
  claim10_invalid_chunk_stream c10env (str ("com,x)/")) (some (str ("20190101000000")))
    (str ("com,x)/ 20190101000000 j")) c10payload c10hb (str ("00")) '2'
    c10payload [] c10meta
    rfl (by decide) rfl rfl (by decide) (by decide) (by decide) (by decide) rfl
    (by decide) rfl (by decide)

/-- Python `s.split(sep, maxsplit)`: at most `maxsplit` splits, the last
element keeps the remainder. -/
def pySplitMax (sep : Char) : Nat → Line → List Line
  | 0, l => [l]
  | n + 1, l =>
    match splitOnce sep l with
    | none => [l]
    | some (a, b) => a :: pySplitMax sep n b

/-- One regex of the abbreviation loops, `rel=.*(p)` for a pattern
alternative list `pats`: some position starts with `rel=` and some `pats`
member occurs at or after the position four characters later. -/
def relAnyAfter (pats : List Line) : Line → Bool
  | [] => false
  | c :: cs =>
    (leadsWith (str ("rel=")) (c :: cs) &&
      pats.any (fun p => occursIn p ((c :: cs).drop 4))) ||
    relAnyAfter pats cs

/-- `re.findall('rel=.*memento"', line)` is non-empty. -/
def relMementoMatch (l : Line) : Bool :=
  relAnyAfter [str ("memento\"")] l

/-- `re.findall('rel=.*(next|prev|first|last)', line)` is non-empty. -/
def relNPFLMatch (l : Line) : Bool :=
  relAnyAfter [str ("next"), str ("prev"), str ("first"), str ("last")] l

/-- The `for idx, line in enumerate(...)` search with `break`: index of the
first line satisfying the predicate. -/
def pivotScan (pred : Line → Bool) : List Line → Option Nat
  | [] => none
  | l :: ls => if pred l then some 0 else (pivotScan pred ls).map (· + 1)

/-- The first abbreviation loop of get_link_header_abbreviated_timemap:
find the first memento line containing the pivot datetime and mark its
successor line `next` and its predecessor line `prev` (each mark a
`.replace` on the neighbour, a no-op when the neighbour has no `memento"`).
`add_both_next_and_prev` is true whenever the pivot index is interior;
`tm_lines[idx - 1]` with Python's negative indexing at `idx = 0` touches
the last element exactly when the list is a singleton, which `List.set 0`
matches; `tm_lines[idx + 1]` is in range whenever its guard holds and the
list has at least two lines (a generated TimeMap always has at least five).
-/
def markPivot (pivot : Line) (tm_lines : List Line) : List Line :=
  match pivotScan (fun l => relMementoMatch l && occursIn pivot l) tm_lines with
  | none => tm_lines
  | some idx =>
    let abnp := 0 < idx ∧ idx < tm_lines.length - 1
    let t1 :=
      if abnp ∨ idx = 0 then
        tm_lines.set (idx + 1) (pyReplace (tm_lines.getD (idx + 1) [])
          (str ("memento\"")) (str ("next memento\"")))
      else tm_lines
    if abnp ∨ idx = tm_lines.length - 1 then
      t1.set (idx - 1) (pyReplace (t1.getD (idx - 1) [])
        (str ("memento\"")) (str ("prev memento\"")))
    else t1

/-- The second abbreviation loop: blank every memento line that neither
contains the pivot datetime nor matches `rel=.*(next|prev|first|last)`. -/
def dropNonAdjacent (pivot : Line) (tm_lines : List Line) : List Line :=
  tm_lines.map (fun l =>
    if relMementoMatch l = true ∧ occursIn pivot l = false ∧ relNPFLMatch l = false
    then [] else l)

/-- The tail of get_link_header_abbreviated_timemap past the single-memento
early return: mark, drop, and join the non-empty lines with spaces
(`' '.join(filter(None, tm_lines))`). -/
def abbreviate_tm_lines (pivot : Line) (tm_lines : List Line) : Line :=
  joinWith [' ']
    ((dropNonAdjacent pivot (markPivot pivot tm_lines)).filter (fun l => !l.isEmpty))

/-- The `first_last_str` of generate_link_timemap_from_cdxj_lines for `n`
lines at position `i`. -/
def firstLastStr (n i : Nat) : Line :=
  if 1 < n then
    if i = 0 then str ("first ")
    else if i = n - 1 then str ("last ")
    else []
  else if n = 1 then str ("first last ")
  else []

/-- One memento line of the link-format TimeMap (with the `,\n` that the
loop appends before it, so the comma ends the previous line after the
final split on newlines). -/
def mementoEntry (env : Env) (host_port : Line) (n i : Nat) (line : Line) : Line :=
  ',' :: '\x0a' :: '<' ::
    (host_port ++ str ("memento/") ++ field1 line ++ '/' :: env.unsurt_fn (field0 line)) ++
    str (">; rel=\"") ++ firstLastStr n i ++ str ("memento\"; datetime=\"") ++
    env.rfc1123_fn (field1 line) ++ ['"']

def mementoEntriesGo (env : Env) (host_port : Line) (n : Nat) : Nat → List Line → Line
  | _, [] => []
  | i, l :: ls =>
    mementoEntry env host_port n i l ++ mementoEntriesGo env host_port n (i + 1) ls

/-- The fixed head of the link-format TimeMap: original, self, cdxj-timemap
and timegate relations (the last without a trailing comma: the commas of
the memento entries precede them). -/
def tm_header_data (env : Env) (original tm_self tg_uri : Line) : Line :=
  '<' :: (str ("http://") ++ env.unsurt_fn original) ++ str (">; rel=\"original\",") ++
  '\x0a' :: '<' :: tm_self ++
    str (">; rel=\"self timemap\"; type=\"application/link-format\",") ++
  '\x0a' :: '<' :: pyReplace tm_self (str ("/timemap/link/")) (str ("/timemap/cdxj/")) ++
    str (">; rel=\"timemap\"; type=\"application/cdxj+ors\",") ++
  '\x0a' :: '<' :: tg_uri ++ str (">; rel=\"timegate\"")

/-- replay.generate_link_timemap_from_cdxj_lines.  The urllib proxy juggling
of get_proxied_urit/urlunsplit is abstracted by `env.proxied` and
`env.base_of` (scheme://host:port/ of a URI); the `none` result is the
ValueError of the 3-way unpacking `line.split(' ', 2)` on a line with fewer
than three fields (Python raises at the first bad line; the output is the
same either way since the exception discards the whole string). -/
def generate_link_timemap_from_cdxj_lines (env : Env) (cdxj_lines : List Line)
    (original tm_self tg_uri : Line) : Option Line :=
  if cdxj_lines.all (fun l => decide (3 ≤ (splitOnChar ' ' l).length)) then
    some (tm_header_data env original
        (if env.proxy.isSome then env.proxied tm_self else tm_self)
        (if env.proxy.isSome then env.proxied tg_uri else tg_uri) ++
      mementoEntriesGo env
        (env.base_of (if env.proxy.isSome then env.proxied tm_self else tm_self))
        cdxj_lines.length 0 cdxj_lines ++ ['\x0a'])
  else none

/-- replay.get_link_header_abbreviated_timemap: build the full link-format
TimeMap for the URI-R, rebase the self relation, return the flattened
stripped TimeMap when it holds a sole `first last memento`, and otherwise
run the mark/drop abbreviation on its lines. -/
def get_link_header_abbreviated_timemap (env : Env) (urir pivot_datetime : Line) :
    Option Line :=
  match generate_link_timemap_from_cdxj_lines env
      (get_cdxj_lines_with_urir (env.surt_fn urir) env.index_lines) (env.surt_fn urir)
      (str ("http://") ++ env.host_port ++ str ("/timemap/link/") ++ urir)
      (str ("http://") ++ env.host_port ++ str ("/timegate/") ++ urir) with
  | none => none
  | some tm0 =>
    if occursIn (str ("rel=\"first last memento\""))
        (pyReplace tm0 (str ("rel=\"self timemap\"")) (str ("rel=\"timemap\""))) then
      some (pyStrip (pyReplace
        (pyReplace tm0 (str ("rel=\"self timemap\"")) (str ("rel=\"timemap\"")))
        ['\x0a'] [' ']))
    else
      some (abbreviate_tm_lines pivot_datetime (splitOnChar '\x0a'
        (pyReplace tm0 (str ("rel=\"self timemap\"")) (str ("rel=\"timemap\"")))))

/-- The collaborators of resolve_memento / show_memento beyond `Env`:
`ipwb_utils.is_localhosty` (the util module is not part of src/). -/
structure MEnv where
  env : Env
  is_localhosty : Line → Bool

/-- Result of resolve_memento: the 404 Response, an uncaught exception, or
the `(new_datetime, link_header, uri)` triple. -/
inductive ResolveRes where
  | notFound
  | err (e : PyExc)
  | ok (new_datetime link_header uri : Line)
deriving DecidableEq

/-- replay.resolve_memento.  A localhosty URI-R is re-pointed at its
embedded target via `urir.split('/', 4)[4]` (IndexError when out of range);
the closest CDXJ line is resolved against the lines sharing the SURT. -/
def resolve_memento (m : MEnv) (urir datetime : Line) : ResolveRes :=
  match (if m.is_localhosty urir then (pySplitMax '/' 4 urir)[4]? else some urir) with
  | none => ResolveRes.err PyExc.splitIndexError
  | some urir2 =>
    match get_cdxj_line_closest_to datetime
        (get_cdxj_lines_with_urir (m.env.surt_fn urir2) m.env.index_lines) with
    | none => ResolveRes.err PyExc.intValueError
    | some none => ResolveRes.notFound
    | some (some closest) =>
      match get_link_header_abbreviated_timemap m.env urir2 (field1 closest) with
      | none => ResolveRes.err PyExc.lineUnpackValueError
      | some link =>
        ResolveRes.ok (field1 closest) link (m.env.unsurt_fn (field0 closest))

/-- Results of show_memento: the 400 page for an invalid datetime, the 404
miss, the 302 redirect to the canonical memento URI (no body), a show_uri
outcome with the Link header attached — where attaching to a bare tuple
return raises AttributeError — or an uncaught exception. -/
inductive MemResult where
  | badRequest
  | notFound
  | redirect302 (location link : Line)
  | page (status : Nat) (body link : Line)
  | missInterface (link : Line)
  | resp (status : Line ⊕ Nat) (body : Line) (headers : List (Line × Line))
  | failure (e : PyExc)
deriving DecidableEq

/-- replay.show_memento (the request query string is empty, so
compile_target_uri is the identity on the path). -/
def show_memento (m : MEnv) (urir datetime : Line) : MemResult :=
  match m.env.pad_digits14 datetime with
  | none => MemResult.badRequest
  | some dt =>
    match resolve_memento m urir dt with
    | ResolveRes.notFound => MemResult.notFound
    | ResolveRes.err e => MemResult.failure e
    | ResolveRes.ok new_dt link uri =>
      if new_dt ≠ dt then
        MemResult.redirect302 (str ("/memento/") ++ new_dt ++ '/' :: urir) link
      else
        match show_uri m.env uri (some new_dt) with
        | UriResult.page st b => MemResult.page st b link
        | UriResult.tuplePage _ _ => MemResult.failure PyExc.tupleHeadersAttrError
        | UriResult.missInterface => MemResult.missInterface link
        | UriResult.resp st b hdrs => MemResult.resp st b (hset hdrs (str ("Link")) link)
        | UriResult.failure e => MemResult.failure e

theorem field0_no_space (l : Line) : ' ' ∉ field0 l := by
  unfold field0
  have hne := splitOnChar_ne_nil ' ' l
  cases hs : splitOnChar ' ' l with
  | nil => exact absurd hs hne
  | cons f fs =>
    have : f ∈ splitOnChar ' ' l := by rw [hs]; exact List.mem_cons_self _ _
    simpa using splitOnChar_not_mem f this

/-- A record returned by `binary_search(..., returnIndex=False)` is a data
line whose search string equals the needle (no sortedness needed: the
returned line is the one at the matched bisection position). -/
theorem binary_search_inr_eq {meta data : List Line} (hs : IndexShape meta data)
    {needle l : Line} {ou : Bool}
    (h : binary_search (meta ++ data) needle false ou = some (Sum.inr l)) :
    l ∈ data ∧ searchStr ou l = needle := by
  unfold binary_search at h
  by_cases hc : bsPos (meta ++ data) needle ou ≠ (bsKeys (meta ++ data) ou).length ∧
      (bsKeys (meta ++ data) ou).getD (bsPos (meta ++ data) needle ou) [] = needle
  · rw [if_pos hc] at h
    rw [if_neg (by simp)] at h
    simp only [Option.some.injEq, Sum.inr.injEq] at h
    have hkeq : bsKeys (meta ++ data) ou = data.map (searchStr ou) := bsKeys_eq hs ou
    have hklen : (bsKeys (meta ++ data) ou).length = data.length := by
      rw [hkeq, List.length_map]
    have hb := bisectF_bounds (bsKeys (meta ++ data) ou) needle
      ((bsKeys (meta ++ data) ou).length - 0) 0 (bsKeys (meta ++ data) ou).length
      (le_refl _) (Nat.zero_le _)
    have hposlt : bsPos (meta ++ data) needle ou < data.length := by
      rw [← hklen]
      exact lt_of_le_of_ne hb.2 hc.1
    rw [bsMetaCount_eq hs] at h
    rw [getD_append_meta hposlt] at h
    have hkey : (bsKeys (meta ++ data) ou).getD (bsPos (meta ++ data) needle ou) [] =
        searchStr ou (data.getD (bsPos (meta ++ data) needle ou) []) := by
      rw [hkeq, getD_eq_of_lt _ [] (by rw [List.length_map]; exact hposlt),
        getD_eq_of_lt _ [] hposlt, List.getElem_map (searchStr ou)]
    constructor
    · rw [← h, getD_eq_of_lt _ [] hposlt]
      exact List.getElem_mem _
    · rw [← h, ← hkey]
      exact hc.2
  · rw [if_neg hc] at h
    exact absurd h (by simp)

/-- C4: for a resolved memento, a record timestamp differing from the
requested datetime yields a 302 redirect to the canonical
`/memento/<resolved-timestamp>/<urir>` URI, a result constructor carrying
no body; equal timestamps serve the reconstructed body whose
Memento-Datetime header is the RFC1123 wire rendering of the record's
timestamp (also after the Link header is attached).  Redirect and served
body are distinct constructors of the result type, never combined. -/
theorem claim4_redirect_or_serve (m : MEnv) (urir datetime dt new_dt link uri : Line)
    (hpad : m.env.pad_digits14 datetime = some dt)
    (hres : resolve_memento m urir dt = ResolveRes.ok new_dt link uri) :
    (new_dt ≠ dt →
      show_memento m urir datetime =
        MemResult.redirect302 (str ("/memento/") ++ new_dt ++ '/' :: urir) link) ∧
    (new_dt = dt →
      ∀ meta data, m.env.index_lines = meta ++ data → IndexShape meta data →
      ' ' ∉ m.env.surt_fn uri →
      ∀ st body hdrs, show_uri m.env uri (some new_dt) = UriResult.resp st body hdrs →
        show_memento m urir datetime =
          MemResult.resp st body (hset hdrs (str ("Link")) link) ∧
        hget hdrs (str ("Memento-Datetime")) = some (m.env.rfc1123_fn new_dt) ∧
        hget (hset hdrs (str ("Link")) link) (str ("Memento-Datetime")) =
          some (m.env.rfc1123_fn new_dt)) := by
  constructor
  · intro hne
    unfold show_memento
    simp only [hpad, hres]
    rw [if_pos hne]
  · intro heq meta data hidx hshape hsp st body hdrs hu
    obtain ⟨cdxj, hbs, hmd, _⟩ := show_uri_resp_headers m.env uri (some new_dt) hu
    rw [hidx] at hbs
    obtain ⟨hmem, hsearch⟩ := binary_search_inr_eq hshape hbs
    have hsearch2 : field0 cdxj ++ ' ' :: field1 cdxj =
        m.env.surt_fn uri ++ ' ' :: new_dt := hsearch
    have hf1 : field1 cdxj = new_dt :=
      (append_sep_inj (field0_no_space cdxj) hsp hsearch2).2
    rw [hf1] at hmd
    refine ⟨?_, hmd, ?_⟩
    · unfold show_memento
      simp only [hpad, hres]
      rw [if_neg (fun hh => hh heq)]
      simp only [hu]
    · rw [hget_hset_ne _ _ (by decide)]
      exact hmd

set_option maxRecDepth 4096 in
def c4env : Env :=
  ⟨true, [str ("com,x)/ 20190101000000 j")], id, id, id, fun d => some d,
    fun _ => none, fun _ => CatRes.otherErr, [], str ("h"), none, id, id⟩

def c4menv : MEnv := ⟨c4env, fun _ => false⟩

/-- The abbreviated (single-memento, flattened) Link TimeMap that
resolve_memento computes for the witness index. -/
def c4link : Line :=
  str ("<http://com,x)/>; rel=\"original\", <http://h/timemap/link/com,x)/>; rel=\"timemap\"; type=\"application/link-format\", <http://h/timemap/cdxj/com,x)/>; rel=\"timemap\"; type=\"application/cdxj+ors\", <http://h/timegate/com,x)/>; rel=\"timegate\", <http://h/timemap/link/com,x)/memento/20190101000000/com,x)/>; rel=\"first last memento\"; datetime=\"20190101000000\"")

set_option maxRecDepth 20000 in
theorem claim4_witness :
    (str ("20190101000000") ≠ str ("20200101000000") →
      show_memento c4menv (str ("com,x)/")) (str ("20200101000000")) =
        MemResult.redirect302
          (str ("/memento/") ++ str ("20190101000000") ++ '/' :: str ("com,x)/"))
          c4link) ∧
    (str ("20190101000000") = str ("20200101000000") →
      ∀ meta data, c4menv.env.index_lines = meta ++ data → IndexShape meta data →
      ' ' ∉ c4menv.env.surt_fn (str ("com,x)/")) →
      ∀ st body hdrs,
        show_uri c4menv.env (str ("com,x)/")) (some (str ("20190101000000"))) =
          UriResult.resp st body hdrs →
        show_memento c4menv (str ("com,x)/")) (str ("20200101000000")) =
          MemResult.resp st body (hset hdrs (str ("Link")) c4link) ∧
        hget hdrs (str ("Memento-Datetime")) =
          some (c4menv.env.rfc1123_fn (str ("20190101000000"))) ∧
        hget (hset hdrs (str ("Link")) c4link) (str ("Memento-Datetime")) =
          some (c4menv.env.rfc1123_fn (str ("20190101000000")))) :=
  claim4_redirect_or_serve c4menv (str ("com,x)/")) (str ("20200101000000"))
    (str ("20200101000000")) (str ("20190101000000")) c4link (str ("com,x)/"))
    rfl (by decide)

theorem occursIn_drop {pat : Line} : ∀ (l : Line) (k : Nat),
    occursIn pat (l.drop k) = true → occursIn pat l = true := by
  intro l
  induction l with
  | nil => intro k h; simpa using h
  | cons c cs ih =>
    intro k h
    cases k with
    | zero => simpa using h
    | succ k =>
      rw [List.drop_succ_cons] at h
      exact occursIn_cons_of_occursIn c (ih k h)

/-- A line that does not contain any of the alternative patterns cannot
match `rel=.*(alts)`. -/
theorem relAnyAfter_false_of_not_occurs {pats : List Line} {l : Line}
    (h : ∀ p ∈ pats, occursIn p l = false) : relAnyAfter pats l = false := by
  induction l with
  | nil => rfl
  | cons c cs ih =>
    have h2 : ∀ p ∈ pats, occursIn p cs = false := fun p hp =>
      (occursIn_cons_false (h p hp)).2
    have hany : pats.any (fun p => occursIn p ((c :: cs).drop 4)) = false := by
      by_contra hc
      rw [Bool.not_eq_false, List.any_eq_true] at hc
      obtain ⟨p, hp, hocc⟩ := hc
      have h3 := occursIn_drop (c :: cs) 4 hocc
      rw [h p hp] at h3
      exact absurd h3 (by decide)
    show ((leadsWith (str ("rel=")) (c :: cs) &&
        pats.any (fun p => occursIn p ((c :: cs).drop 4))) ||
      relAnyAfter pats cs) = false
    rw [hany, ih h2, Bool.and_false, Bool.or_false]

/-- `.replace` with a non-empty replacement never empties a non-empty
string. -/
theorem pyReplace_ne_nil {s pat rep : Line} (hs : s ≠ []) (hrep : rep ≠ []) :
    pyReplace s pat rep ≠ [] := by
  cases s with
  | nil => exact absurd rfl hs
  | cons c cs =>
    show pyReplaceF (c :: cs).length (c :: cs) pat rep ≠ []
    simp only [List.length_cons, pyReplaceF]
    by_cases hc : pat ≠ [] ∧ leadsWith pat (c :: cs) = true
    · rw [if_pos hc]
      simp [hrep]
    · rw [if_neg hc]
      simp

theorem getD_append_left {xs ys : List Line} {i : Nat} (h : i < xs.length) :
    (xs ++ ys).getD i [] = xs.getD i [] := by
  rw [getD_eq_of_lt _ [] (by rw [List.length_append]; omega), getD_eq_of_lt _ [] h]
  exact List.getElem_append_left _

theorem getD_append_right2 (xs ys : List Line) (i : Nat) (h : i < ys.length) :
    (xs ++ ys).getD (xs.length + i) [] = ys.getD i [] := by
  rw [Nat.add_comm]
  exact getD_append_meta h

theorem getD_set_self (l : List Line) (v : Line) {i : Nat} (hi : i < l.length) :
    (l.set i v).getD i [] = v := by
  rw [getD_eq_of_lt _ [] (by simpa using hi)]
  exact List.getElem_set_self (by simpa using hi)

theorem getD_set_ne (l : List Line) (v : Line) {i j : Nat} (hne : j ≠ i)
    (hj : j < l.length) : (l.set i v).getD j [] = l.getD j [] := by
  rw [getD_eq_of_lt _ [] (by simpa using hj), getD_eq_of_lt _ [] hj]
  exact List.getElem_set_ne (fun hh => hne (Eq.symm hh)) _

theorem getD_map (f : Line → Line) (l : List Line) {j : Nat} (hj : j < l.length) :
    (l.map f).getD j [] = f (l.getD j []) := by
  rw [getD_eq_of_lt _ [] (by simpa using hj), getD_eq_of_lt _ [] hj,
    List.getElem_map f]

/-- The enumerate-with-break search finds exactly the first satisfying
index. -/
theorem pivotScan_spec (pred : Line → Bool) : ∀ (l : List Line) (p : Nat),
    p < l.length → (∀ i, i < p → pred (l.getD i []) = false) →
    pred (l.getD p []) = true → pivotScan pred l = some p := by
  intro l
  induction l with
  | nil =>
    intro p hp _ _
    simp at hp
  | cons x xs ih =>
    intro p hp hbelow hat
    cases p with
    | zero =>
      simp only [List.getD_cons_zero] at hat
      simp [pivotScan, hat]
    | succ p =>
      have hx : pred x = false := by
        have := hbelow 0 (Nat.succ_pos p)
        simpa using this
      simp only [List.getD_cons_succ] at hat
      have hxs := ih p (by simpa using hp)
        (fun i hi => by
          have := hbelow (i + 1) (by omega)
          simpa using this) hat
      simp [pivotScan, hx, hxs]

theorem occursIn_append_right (pat x : Line) {y : Line} (h : occursIn pat y = true) :
    occursIn pat (x ++ y) = true := by
  induction x with
  | nil => simpa using h
  | cons c cs ih => exact occursIn_cons_of_occursIn c ih

/-- C5: on the lines of a full link-format TimeMap — a non-empty block of
header lines (no `memento"`, no pivot occurrence), `n ≥ 2` memento lines of
which exactly the one at position `p` contains the pivot timestamp, each
matching `rel=.*memento"` and matching `rel=.*(next|prev|first|last)`
exactly at the first and the last position, and the trailing empty line of
the final newline — the abbreviation keeps a memento line exactly when it
is the first, the last, the pivot, the pivot's immediate predecessor
(rewritten with the `prev` mark) or its immediate successor (rewritten with
the `next` mark); header lines pass through unchanged and the result is the
space-join of the surviving lines (one flattened line).  Moreover a
single-record TimeMap always carries `rel="first last memento"`, and on
any TimeMap carrying it get_link_header_abbreviated_timemap returns the
whole TimeMap flattened (newlines to spaces, stripped) with no prev/next
marking at all. -/
theorem claim5_abbreviated_timemap (pivot : Line) (hdr ms : List Line) (p : Nat)
    (hhdr_ne : hdr ≠ [])
    (hn : 2 ≤ ms.length)
    (hp : p < ms.length)
    (hhdr_nm : ∀ x ∈ hdr, occursIn (str ("memento\"")) x = false)
    (hm_mem : ∀ i, i < ms.length → relMementoMatch (ms.getD i []) = true)
    (hm_piv : ∀ i, i < ms.length → (occursIn pivot (ms.getD i []) = true ↔ i = p))
    (hm_npfl : ∀ i, i < ms.length →
      (relNPFLMatch (ms.getD i []) = true ↔ (i = 0 ∨ i = ms.length - 1)))
    (hnext : p + 1 < ms.length →
      relNPFLMatch (pyReplace (ms.getD (p + 1) []) (str ("memento\""))
        (str ("next memento\""))) = true)
    (hprev : 0 < p →
      relNPFLMatch (pyReplace (ms.getD (p - 1) []) (str ("memento\""))
        (str ("prev memento\""))) = true) :
    (dropNonAdjacent pivot (markPivot pivot (hdr ++ (ms ++ [[]])))).length =
        (hdr ++ (ms ++ [[]])).length ∧
    (∀ i, i < hdr.length →
      (dropNonAdjacent pivot (markPivot pivot (hdr ++ (ms ++ [[]])))).getD i [] =
        hdr.getD i []) ∧
    (∀ i, i < ms.length →
      ((dropNonAdjacent pivot (markPivot pivot (hdr ++ (ms ++ [[]])))).getD
          (hdr.length + i) [] ≠ [] ↔
        (i = 0 ∨ i = ms.length - 1 ∨ i + 1 = p ∨ i = p ∨ i = p + 1))) ∧
    (p + 1 < ms.length →
      (dropNonAdjacent pivot (markPivot pivot (hdr ++ (ms ++ [[]])))).getD
          (hdr.length + (p + 1)) [] =
        pyReplace (ms.getD (p + 1) []) (str ("memento\"")) (str ("next memento\""))) ∧
    (0 < p →
      (dropNonAdjacent pivot (markPivot pivot (hdr ++ (ms ++ [[]])))).getD
          (hdr.length + (p - 1)) [] =
        pyReplace (ms.getD (p - 1) []) (str ("memento\"")) (str ("prev memento\""))) ∧
    abbreviate_tm_lines pivot (hdr ++ (ms ++ [[]])) =
      joinWith [' ']
        ((dropNonAdjacent pivot (markPivot pivot (hdr ++ (ms ++ [[]])))).filter
          (fun l => !l.isEmpty)) ∧
    (∀ (env : Env) (orig tms tg l tm0 : Line),
      generate_link_timemap_from_cdxj_lines env [l] orig tms tg = some tm0 →
      occursIn (str ("rel=\"first last memento\"")) tm0 = true) ∧
    (∀ (env : Env) (urir pivot2 tm0 : Line),
      generate_link_timemap_from_cdxj_lines env
        (get_cdxj_lines_with_urir (env.surt_fn urir) env.index_lines)
        (env.surt_fn urir)
        (str ("http://") ++ env.host_port ++ str ("/timemap/link/") ++ urir)
        (str ("http://") ++ env.host_port ++ str ("/timegate/") ++ urir) = some tm0 →
      occursIn (str ("rel=\"first last memento\""))
        (pyReplace tm0 (str ("rel=\"self timemap\"")) (str ("rel=\"timemap\""))) =
        true →
      get_link_header_abbreviated_timemap env urir pivot2 =
        some (pyStrip (pyReplace (pyReplace tm0 (str ("rel=\"self timemap\""))
          (str ("rel=\"timemap\""))) ['\x0a'] [' ']))) := by
  have hhl : 0 < hdr.length := List.length_pos.mpr hhdr_ne
  have hLlen : (hdr ++ (ms ++ [[]])).length = hdr.length + ms.length + 1 := by
    simp [List.length_append]
    omega
  have h_at : ∀ i, i < ms.length →
      (hdr ++ (ms ++ [[]])).getD (hdr.length + i) [] = ms.getD i [] := by
    intro i hi
    rw [getD_append_right2 hdr (ms ++ [[]]) i (by simp; omega)]
    exact getD_append_left hi
  have h_hdr_at : ∀ i, i < hdr.length →
      (hdr ++ (ms ++ [[]])).getD i [] = hdr.getD i [] :=
    fun i hi => getD_append_left hi
  have hhdr_rm : ∀ x ∈ hdr, relMementoMatch x = false := by
    intro x hx
    apply relAnyAfter_false_of_not_occurs
    intro q hq
    rw [List.mem_singleton] at hq
    subst hq
    exact hhdr_nm x hx
  have hm_ne : ∀ i, i < ms.length → ms.getD i [] ≠ [] := by
    intro i hi hnil
    have h1 := hm_mem i hi
    rw [hnil] at h1
    exact absurd h1 (by decide)
  have hpivF : ∀ i, i < ms.length → i ≠ p → occursIn pivot (ms.getD i []) = false := by
    intro i hi hne
    by_contra hc
    rw [Bool.not_eq_false] at hc
    exact hne ((hm_piv i hi).mp hc)
  have hscan : pivotScan (fun l => relMementoMatch l && occursIn pivot l)
      (hdr ++ (ms ++ [[]])) = some (hdr.length + p) := by
    apply pivotScan_spec
    · rw [hLlen]; omega
    · intro j hj
      rcases Nat.lt_or_ge j hdr.length with hjh | hjh
      · rw [h_hdr_at j hjh]
        have hx : hdr.getD j [] ∈ hdr := by
          rw [getD_eq_of_lt _ [] hjh]
          exact List.getElem_mem _
        rw [hhdr_rm _ hx, Bool.false_and]
      · obtain ⟨i, rfl⟩ : ∃ i, j = hdr.length + i := ⟨j - hdr.length, by omega⟩
        rw [h_at i (by omega), hpivF i (by omega) (by omega), Bool.and_false]
    · rw [h_at p hp, hm_mem p hp, (hm_piv p hp).mpr rfl]
      rfl
  have habnp : (0 < hdr.length + p ∧
      hdr.length + p < (hdr ++ (ms ++ [[]])).length - 1) := by
    constructor
    · omega
    · rw [hLlen]; omega
  have hmark : markPivot pivot (hdr ++ (ms ++ [[]])) =
      ((hdr ++ (ms ++ [[]])).set (hdr.length + p + 1)
        (pyReplace ((hdr ++ (ms ++ [[]])).getD (hdr.length + p + 1) [])
          (str ("memento\"")) (str ("next memento\"")))).set (hdr.length + p - 1)
        (pyReplace ((hdr ++ (ms ++ [[]])).getD (hdr.length + p - 1) [])
          (str ("memento\"")) (str ("prev memento\""))) := by
    unfold markPivot
    simp only [hscan]
    rw [if_pos (Or.inl habnp), if_pos (Or.inl habnp)]
    rw [getD_set_ne _ _ (by omega) (by rw [hLlen]; omega)]
  have hMlen : (markPivot pivot (hdr ++ (ms ++ [[]]))).length =
      (hdr ++ (ms ++ [[]])).length := by
    rw [hmark]
    simp
  have hM_at : ∀ i, i < ms.length → i ≠ p + 1 → i + 1 ≠ p →
      (markPivot pivot (hdr ++ (ms ++ [[]]))).getD (hdr.length + i) [] =
        ms.getD i [] := by
    intro i hi h1 h2
    rw [hmark]
    rw [getD_set_ne _ _ (by omega) (by rw [List.length_set, hLlen]; omega)]
    rw [getD_set_ne _ _ (by omega) (by rw [hLlen]; omega)]
    exact h_at i hi
  have hM_next : p + 1 < ms.length →
      (markPivot pivot (hdr ++ (ms ++ [[]]))).getD (hdr.length + (p + 1)) [] =
        pyReplace (ms.getD (p + 1) []) (str ("memento\"")) (str ("next memento\"")) := by
    intro hpn
    rw [hmark]
    rw [show hdr.length + (p + 1) = hdr.length + p + 1 from by omega]
    rw [getD_set_ne _ _ (by omega) (by rw [List.length_set, hLlen]; omega)]
    rw [getD_set_self _ _ (by rw [hLlen]; omega)]
    rw [show hdr.length + p + 1 = hdr.length + (p + 1) from by omega, h_at (p + 1) hpn]
  have hM_prev : 0 < p →
      (markPivot pivot (hdr ++ (ms ++ [[]]))).getD (hdr.length + (p - 1)) [] =
        pyReplace (ms.getD (p - 1) []) (str ("memento\"")) (str ("prev memento\"")) := by
    intro hpp
    rw [hmark]
    rw [show hdr.length + (p - 1) = hdr.length + p - 1 from by omega]
    rw [getD_set_self _ _ (by rw [List.length_set, hLlen]; omega)]
    rw [show hdr.length + p - 1 = hdr.length + (p - 1) from by omega,
      h_at (p - 1) (by omega)]
  have hM_hdr : ∀ i, i < hdr.length →
      (markPivot pivot (hdr ++ (ms ++ [[]]))).getD i [] = hdr.getD i [] := by
    intro i hi
    rw [hmark]
    by_cases hpi : p = 0 ∧ i = hdr.length - 1
    · obtain ⟨hp0, hie⟩ := hpi
      subst hp0
      rw [hie]
      rw [show hdr.length + 0 - 1 = hdr.length - 1 from by omega]
      rw [getD_set_self _ _ (by rw [List.length_set, hLlen]; omega)]
      rw [h_hdr_at (hdr.length - 1) (by omega)]
      apply pyReplace_of_not_occurs
      apply hhdr_nm
      rw [getD_eq_of_lt _ [] (by omega)]
      exact List.getElem_mem _
    · have hne1 : i ≠ hdr.length + p - 1 := by
        rcases Nat.eq_zero_or_pos p with hp0 | hp0
        · subst hp0
          intro hh
          exact hpi ⟨rfl, by omega⟩
        · omega
      rw [getD_set_ne _ _ hne1 (by rw [List.length_set, hLlen]; omega)]
      rw [getD_set_ne _ _ (by omega) (by rw [hLlen]; omega)]
      exact h_hdr_at i hi
  refine ⟨by simp [dropNonAdjacent, hMlen], ?_, ?_, ?_, ?_, rfl, ?_, ?_⟩
  · -- header lines pass through
    intro i hi
    simp only [dropNonAdjacent]
    rw [getD_map _ _ (by rw [hMlen, hLlen]; omega), hM_hdr i hi]
    rw [if_neg (by
      rintro ⟨h1, -, -⟩
      rw [hhdr_rm _ (by rw [getD_eq_of_lt _ [] hi]; exact List.getElem_mem _)] at h1
      exact absurd h1 (by decide))]
  · -- keep-iff characterization of the memento region
    intro i hi
    simp only [dropNonAdjacent]
    rw [getD_map _ _ (by rw [hMlen, hLlen]; omega)]
    by_cases hip : i = p
    · rw [hM_at i hi (by omega) (by omega)]
      have hpt : occursIn pivot (ms.getD i []) = true := (hm_piv i hi).mpr hip
      rw [if_neg (by rintro ⟨-, h2, -⟩; rw [hpt] at h2; exact absurd h2 (by decide))]
      exact iff_of_true (hm_ne i hi) (Or.inr (Or.inr (Or.inr (Or.inl hip))))
    · by_cases hip1 : i = p + 1
      · have hpn : p + 1 < ms.length := hip1 ▸ hi
        rw [hip1, hM_next hpn]
        have hkeep := hnext hpn
        rw [if_neg (by rintro ⟨-, -, h3⟩; rw [hkeep] at h3; exact absurd h3 (by decide))]
        refine iff_of_true ?_ (Or.inr (Or.inr (Or.inr (Or.inr rfl))))
        exact pyReplace_ne_nil (hm_ne (p + 1) hpn) (by decide)
      · by_cases him1 : i + 1 = p
        · have hpp : 0 < p := by omega
          have hieq : i = p - 1 := by omega
          rw [hieq, hM_prev hpp]
          have hkeep := hprev hpp
          rw [if_neg (by
            rintro ⟨-, -, h3⟩
            rw [hkeep] at h3
            exact absurd h3 (by decide))]
          refine iff_of_true ?_ (Or.inr (Or.inr (Or.inl (by omega))))
          exact pyReplace_ne_nil (hm_ne (p - 1) (by omega)) (by decide)
        · rw [hM_at i hi hip1 him1]
          by_cases hfl : i = 0 ∨ i = ms.length - 1
          · have hNT : relNPFLMatch (ms.getD i []) = true := (hm_npfl i hi).mpr hfl
            rw [if_neg (by
              rintro ⟨-, -, h3⟩
              rw [hNT] at h3
              exact absurd h3 (by decide))]
            refine iff_of_true (hm_ne i hi) ?_
            rcases hfl with h0 | hl
            · exact Or.inl h0
            · exact Or.inr (Or.inl hl)
          · have hNF : relNPFLMatch (ms.getD i []) = false := by
              by_contra hc
              rw [Bool.not_eq_false] at hc
              exact hfl ((hm_npfl i hi).mp hc)
            rw [if_pos ⟨hm_mem i hi, hpivF i hi hip, hNF⟩]
            refine iff_of_false (by simp) ?_
            push_neg at hfl
            rintro (h0 | hl | hm | hp2 | hp3)
            · exact hfl.1 h0
            · exact hfl.2 hl
            · exact him1 hm
            · exact hip hp2
            · exact hip1 hp3
  · -- the successor line carries the next mark
    intro hpn
    simp only [dropNonAdjacent]
    rw [getD_map _ _ (by rw [hMlen, hLlen]; omega), hM_next hpn]
    have hkeep := hnext hpn
    rw [if_neg (by rintro ⟨-, -, h3⟩; rw [hkeep] at h3; exact absurd h3 (by decide))]
  · -- the predecessor line carries the prev mark
    intro hpp
    simp only [dropNonAdjacent]
    rw [getD_map _ _ (by rw [hMlen, hLlen]; omega), hM_prev hpp]
    have hkeep := hprev hpp
    rw [if_neg (by rintro ⟨-, -, h3⟩; rw [hkeep] at h3; exact absurd h3 (by decide))]
  · -- a single-record TimeMap carries the first-last-memento relation
    intro env orig tms tg l tm0 hgen
    unfold generate_link_timemap_from_cdxj_lines at hgen
    by_cases hwf : [l].all (fun x => decide (3 ≤ (splitOnChar ' ' x).length)) = true
    · rw [if_pos hwf] at hgen
      rw [Option.some.injEq] at hgen
      subst hgen
      simp only [List.append_assoc]
      apply occursIn_append_right
      simp only [mementoEntriesGo, List.append_nil, mementoEntry, List.length_singleton]
      rw [show firstLastStr 1 0 = str ("first last ") from by decide]
      simp only [List.cons_append, List.append_assoc, List.nil_append]
      apply occursIn_cons_of_occursIn
      apply occursIn_cons_of_occursIn
      apply occursIn_cons_of_occursIn
      apply occursIn_append_right
      apply occursIn_append_right
      apply occursIn_append_right
      apply occursIn_cons_of_occursIn
      apply occursIn_append_right
      rw [show str (">; rel=\"") ++ (str ("first last ") ++
          (str ("memento\"; datetime=\"") ++
            (env.rfc1123_fn (field1 l) ++ ('"' :: ['\x0a'])))) =
        str (">; ") ++ (str ("rel=\"first last memento\"") ++
          (str ("; datetime=\"") ++
            (env.rfc1123_fn (field1 l) ++ ('"' :: ['\x0a'])))) from by
        rw [show str (">; rel=\"") = str (">; ") ++ str ("rel=\"") from by decide,
          show str ("rel=\"first last memento\"") =
            str ("rel=\"") ++ (str ("first last ") ++ str ("memento\"")) from by decide,
          show str ("memento\"; datetime=\"") =
            str ("memento\"") ++ str ("; datetime=\"") from by decide]
        simp [List.append_assoc]]
      apply occursIn_append_right
      exact occursIn_of_leadsWith (leadsWith_append _ _)
    · rw [if_neg hwf] at hgen
      exact absurd hgen (by simp)
  · -- the single-memento TimeMap is returned flattened, unmarked
    intro env urir pivot2 tm0 hgen hocc
    unfold get_link_header_abbreviated_timemap
    simp only [hgen]
    rw [if_pos hocc]

def c5hdr : List Line := [str ("ho"), str ("ht")]

/-- Seven memento lines; the pivot timestamp `td` occurs only in the fourth
(position 4, 1-indexed), the first carries `first` and the last `last`. -/
def c5ms : List Line :=
  [str ("rel=\"first memento\" ta"),
   str ("rel=\"memento\" tb"),
   str ("rel=\"memento\" tc"),
   str ("rel=\"memento\" td"),
   str ("rel=\"memento\" te"),
   str ("rel=\"memento\" tf"),
   str ("rel=\"last memento\" tg")]

theorem claim5_witness :
    (dropNonAdjacent (str ("td")) (markPivot (str ("td"))
        (c5hdr ++ (c5ms ++ [[]])))).length = (c5hdr ++ (c5ms ++ [[]])).length ∧
    (∀ i, i < c5hdr.length →
      (dropNonAdjacent (str ("td")) (markPivot (str ("td"))
        (c5hdr ++ (c5ms ++ [[]])))).getD i [] = c5hdr.getD i []) ∧
    (∀ i, i < c5ms.length →
      ((dropNonAdjacent (str ("td")) (markPivot (str ("td"))
          (c5hdr ++ (c5ms ++ [[]])))).getD (c5hdr.length + i) [] ≠ [] ↔
        (i = 0 ∨ i = c5ms.length - 1 ∨ i + 1 = 3 ∨ i = 3 ∨ i = 3 + 1))) ∧
    (3 + 1 < c5ms.length →
      (dropNonAdjacent (str ("td")) (markPivot (str ("td"))
          (c5hdr ++ (c5ms ++ [[]])))).getD (c5hdr.length + (3 + 1)) [] =
        pyReplace (c5ms.getD (3 + 1) []) (str ("memento\""))
          (str ("next memento\""))) ∧
    (0 < 3 →
      (dropNonAdjacent (str ("td")) (markPivot (str ("td"))
          (c5hdr ++ (c5ms ++ [[]])))).getD (c5hdr.length + (3 - 1)) [] =
        pyReplace (c5ms.getD (3 - 1) []) (str ("memento\""))
          (str ("prev memento\""))) ∧
    abbreviate_tm_lines (str ("td")) (c5hdr ++ (c5ms ++ [[]])) =
      joinWith [' ']
        ((dropNonAdjacent (str ("td")) (markPivot (str ("td"))
          (c5hdr ++ (c5ms ++ [[]])))).filter (fun l => !l.isEmpty)) ∧
    (∀ (env : Env) (orig tms tg l tm0 : Line),
      generate_link_timemap_from_cdxj_lines env [l] orig tms tg = some tm0 →
      occursIn (str ("rel=\"first last memento\"")) tm0 = true) ∧
    (∀ (env : Env) (urir pivot2 tm0 : Line),
      generate_link_timemap_from_cdxj_lines env
        (get_cdxj_lines_with_urir (env.surt_fn urir) env.index_lines)
        (env.surt_fn urir)
        (str ("http://") ++ env.host_port ++ str ("/timemap/link/") ++ urir)
        (str ("http://") ++ env.host_port ++ str ("/timegate/") ++ urir) = some tm0 →
      occursIn (str ("rel=\"first last memento\""))
        (pyReplace tm0 (str ("rel=\"self timemap\"")) (str ("rel=\"timemap\""))) =
        true →
      get_link_header_abbreviated_timemap env urir pivot2 =
        some (pyStrip (pyReplace (pyReplace tm0 (str ("rel=\"self timemap\""))
          (str ("rel=\"timemap\""))) ['\x0a'] [' ']))) :=
  claim5_abbreviated_timemap (str ("td")) c5hdr c5ms 3 (by decide) (by decide)
    (by decide) (by decide) (by decide) (by decide) (by decide) (by decide)
    (by decide)
